import Mathlib

/-!
Verification of the ZAM snapshot-management daemon against its design
specification.  The Python sources are shallowly embedded: durations and
UTC timestamps become integers (whole seconds), fallible code returns
`Except`/`Option`, and the stateful scheduler loop becomes an explicit
step function on a state record.  Each claim of the specification is then
stated and settled as a theorem about these definitions.
-/

set_option autoImplicit false

namespace ZAM

/-! ### Durations and the Window data model (src/zam/config.py)

A `datetime.timedelta` is modelled as a whole number of seconds.
`timedeltaMax` models `datetime.timedelta.max` (999999999 days,
23:59:59.999999 — microseconds are irrelevant at this resolution). -/

abbrev Timedelta := Int

def timedeltaMax : Timedelta := 999999999 * 86400 + 86399

/-- Embeds `window_t`: a retention tier with an optional `max_age` and a
`period` (both `datetime.timedelta`). -/
structure window_t where
  max_age : Option Timedelta
  period : Timedelta
deriving DecidableEq

/-- Embeds the sort key `lambda x: x.max_age or datetime.timedelta.max` from
`replica_t.__post_init__`.  Python's `or` returns the right operand whenever
the left one is falsy, and both `None` and a zero-length `timedelta` are
falsy. -/
def get_window_max_age (w : window_t) : Timedelta :=
  match w.max_age with
  | none => timedeltaMax
  | some a => if a = 0 then timedeltaMax else a

/-- Embeds the sort key `lambda x: x.period` from `replica_t.__post_init__`. -/
def get_window_period (w : window_t) : Timedelta := w.period

/-- The spec's reading of the max-age sort key, for comparison with the
code's `get_window_max_age`: only an *absent* `max_age` sorts as infinite
("absent = infinite, sorts last"); a present zero-length duration keeps its
numeric value. -/
def spec_window_max_age (w : window_t) : Timedelta :=
  match w.max_age with
  | none => timedeltaMax
  | some a => a

/-- Python's `sorted(list, key=k)` is a stable sort by the key; any stable
sort by the same key produces the same list, so insertion sort models it
exactly. -/
def pySortedByKey (key : window_t → Timedelta) (ws : List window_t) : List window_t :=
  ws.insertionSort (fun a b => key a ≤ key b)

/-- Embeds `replica_t.__post_init__`: raise `ValueError` when the window
list differs from itself sorted by the max-age key, or from itself sorted
by the period key. -/
instance : DecidableEq (Except String Unit) := fun a b =>
  match a, b with
  | Except.ok x, Except.ok y =>
    if h : x = y then isTrue (by rw [h])
    else isFalse (by intro hh; injection hh; contradiction)
  | Except.ok _, Except.error _ => isFalse (fun h => Except.noConfusion h)
  | Except.error _, Except.ok _ => isFalse (fun h => Except.noConfusion h)
  | Except.error e, Except.error f =>
    if h : e = f then isTrue (by rw [h])
    else isFalse (by intro hh; injection hh; contradiction)

def replica_post_init (ws : List window_t) : Except String Unit :=
  if ws ≠ pySortedByKey get_window_max_age ws then
    Except.error "windows are not sorted by max_age"
  else if ws ≠ pySortedByKey get_window_period ws then
    Except.error "window periods are not monotonically increasing"
  else Except.ok ()

theorem pySortedByKey_eq_self_iff (key : window_t → Timedelta) (ws : List window_t) :
    pySortedByKey key ws = ws ↔ ws.Sorted (fun a b => key a ≤ key b) := by
  constructor
  · intro h
    have : IsTotal window_t (fun a b => key a ≤ key b) := ⟨fun a b => le_total _ _⟩
    have : IsTrans window_t (fun a b => key a ≤ key b) := ⟨fun a b c => le_trans⟩
    have hs := List.sorted_insertionSort (fun a b => key a ≤ key b) ws
    rw [pySortedByKey] at h
    rwa [h] at hs
  · intro h
    exact List.Sorted.insertionSort_eq h

/-! ### Snapshots and the replication algorithm (src/zam/replicator.py)

A `snapshot_t` is ordered by (and identified with) its timestamp, so a
snapshot is modelled as its integer timestamp.  The backend state of a
destination replica is `none` when the dataset does not exist and
`some l` (its list of snapshots) when it does.  `clone_to` is the
two-sided send/receive transfer; on success it makes `snapshot_new`
present on the destination.  A `Transfer` records one `clone_to` call:
`(none, s)` is a full transfer of `s`, `(some p, c)` an incremental
transfer with base `p`. -/

abbrev Snapshot := Int

abbrev Transfer := Option Snapshot × Snapshot

/-- Embeds the inner pair loop of `replicator.run`: walk the source list as
consecutive pairs `(previous, current)`; `assert previous in snapshots_d`;
if `current` is missing, `clone_to(dest, previous, current)` and append
`current` to the in-memory destination list.  Returns the final destination
list together with the transfers performed, in order. -/
def walkPairs (dstate : List Snapshot) :
    List (Snapshot × Snapshot) → Except String (List Snapshot × List Transfer)
  | [] => Except.ok (dstate, [])
  | (previous, current) :: rest =>
    if previous ∈ dstate then
      if current ∈ dstate then
        walkPairs dstate rest
      else
        match walkPairs (dstate ++ [current]) rest with
        | Except.ok (d2, log) => Except.ok (d2, (some previous, current) :: log)
        | Except.error e => Except.error e
    else Except.error "assert previous in snapshots_d"

/-- Embeds the per-destination body of `replicator.run`: if the destination
dataset does not exist, first `clone_to(dest, None, snapshots_s[0])` (a full
transfer of the source's oldest snapshot), then list the destination and
walk the consecutive source pairs. -/
def runDest (s : List Snapshot) (d : Option (List Snapshot)) :
    Except String (List Snapshot × List Transfer) :=
  match d with
  | none =>
    match walkPairs [s.headI] (s.zip s.tail) with
    | Except.ok (d2, log) => Except.ok (d2, (none, s.headI) :: log)
    | Except.error e => Except.error e
  | some l => walkPairs l (s.zip s.tail)

/-- Destination loop of `replicator.run`, destinations processed in
configured order, fail-fast. -/
def runDests (s : List Snapshot) :
    List (Option (List Snapshot)) → Except String (List (List Snapshot × List Transfer))
  | [] => Except.ok []
  | d :: rest =>
    match runDest s d with
    | Except.ok r =>
      match runDests s rest with
      | Except.ok rs => Except.ok (r :: rs)
      | Except.error e => Except.error e
    | Except.error e => Except.error e

/-- Embeds `replicator.run`: `snapshots_s = src.list()` is the (ascending)
source snapshot list captured once at the start; `assert len(snapshots_s) > 0`;
then each destination is reconciled.  The result pairs each destination's
final snapshot list with the transfers made to it. -/
def replicator_run (s : List Snapshot) (dests : List (Option (List Snapshot))) :
    Except String (List (List Snapshot × List Transfer)) :=
  if s.isEmpty then Except.error "assert len(snapshots_s) > 0"
  else runDests s dests

/-! ### Timestamps, snapshot naming and parsing (src/zam/config.py)

A `datetime.datetime` is embedded field by field.  `DateTime.Valid` captures
the ranges every Python `datetime` satisfies (`MINYEAR = 1`,
`MAXYEAR = 9999`; the real type further restricts `day` by month length,
so every real `datetime` is `Valid` here).  Snapshot names are handled as
`List Char`; the `strftime`/`strptime` format string is embedded as a list
of tokens covering literal characters and the directives
`%Y %m %d %H %M %S` used by the default format
`"%Y-%m-%dT%H:%M:%S"`. -/

structure DateTime where
  year : Nat
  month : Nat
  day : Nat
  hour : Nat
  minute : Nat
  second : Nat
  microsecond : Nat
deriving DecidableEq

def DateTime.Valid (dt : DateTime) : Prop :=
  1 ≤ dt.year ∧ dt.year ≤ 9999 ∧ 1 ≤ dt.month ∧ dt.month ≤ 12 ∧
  1 ≤ dt.day ∧ dt.day ≤ 31 ∧ dt.hour ≤ 23 ∧ dt.minute ≤ 59 ∧
  dt.second ≤ 59 ∧ dt.microsecond ≤ 999999

instance (dt : DateTime) : Decidable dt.Valid := by
  unfold DateTime.Valid; infer_instance

inductive FmtTok where
  | lit (c : Char)
  | Y | m | d | H | M | S
deriving DecidableEq

/-- The default `date_fstring` of `replica_t`, `"%Y-%m-%dT%H:%M:%S"`. -/
def defaultFmt : List FmtTok :=
  [FmtTok.Y, FmtTok.lit '-', FmtTok.m, FmtTok.lit '-', FmtTok.d,
   FmtTok.lit 'T', FmtTok.H, FmtTok.lit ':', FmtTok.M, FmtTok.lit ':',
   FmtTok.S]

def digitChar (n : Nat) : Char :=
  match n with
  | 0 => '0' | 1 => '1' | 2 => '2' | 3 => '3' | 4 => '4'
  | 5 => '5' | 6 => '6' | 7 => '7' | 8 => '8' | _ => '9'

/-- Fixed-width zero-padded decimal rendering, as `strftime` produces for
`%m %d %H %M %S` (width 2) on in-range values. -/
def natToDigits (w n : Nat) : List Char :=
  match w with
  | 0 => []
  | w + 1 => natToDigits w (n / 10) ++ [digitChar (n % 10)]

/-- Unpadded decimal rendering of a year, as the platform (glibc)
`strftime` produces for `%Y`: the year is printed as a plain decimal
number with no zero padding, so years below 1000 render with fewer than
four digits.  `datetime` years range over 1..9999 (`MINYEAR`/`MAXYEAR`),
which this covers exactly. -/
def yearDigits (n : Nat) : List Char :=
  natToDigits
    (if n < 10 then 1 else if n < 100 then 2 else if n < 1000 then 3 else 4)
    n

/-- Embeds `datetime.strftime` restricted to the modelled directives
(`%Y` unpadded per the platform C library; the two-digit fields
zero-padded). -/
def strftime (toks : List FmtTok) (dt : DateTime) : List Char :=
  match toks with
  | [] => []
  | FmtTok.lit c :: rest => c :: strftime rest dt
  | FmtTok.Y :: rest => yearDigits dt.year ++ strftime rest dt
  | FmtTok.m :: rest => natToDigits 2 dt.month ++ strftime rest dt
  | FmtTok.d :: rest => natToDigits 2 dt.day ++ strftime rest dt
  | FmtTok.H :: rest => natToDigits 2 dt.hour ++ strftime rest dt
  | FmtTok.M :: rest => natToDigits 2 dt.minute ++ strftime rest dt
  | FmtTok.S :: rest => natToDigits 2 dt.second ++ strftime rest dt

def charVal (c : Char) : Nat := c.toNat - 48

/-- Two-digit-preferring numeric field parser with an in-range check,
matching CPython `_strptime`'s regexes for `%m %d %H %M %S` (for example
`%m` uses `1[0-2]|0[1-9]|[1-9]`: two digits whenever the two-digit value is
in range, otherwise one digit whose value is in range). -/
def parse2 (lo hi : Nat) (cs : List Char) : Option (Nat × List Char) :=
  match cs with
  | c1 :: c2 :: rest =>
    if c1.isDigit ∧ c2.isDigit ∧ lo ≤ charVal c1 * 10 + charVal c2 ∧
        charVal c1 * 10 + charVal c2 ≤ hi then
      some (charVal c1 * 10 + charVal c2, rest)
    else if c1.isDigit ∧ lo ≤ charVal c1 ∧ charVal c1 ≤ hi then
      some (charVal c1, c2 :: rest)
    else none
  | [c1] =>
    if c1.isDigit ∧ lo ≤ charVal c1 ∧ charVal c1 ≤ hi then
      some (charVal c1, [])
    else none
  | [] => none

/-- Exactly-four-digit year parser, matching `%Y`'s regex `\d\d\d\d`. -/
def parse4 (cs : List Char) : Option (Nat × List Char) :=
  match cs with
  | c1 :: c2 :: c3 :: c4 :: rest =>
    if c1.isDigit ∧ c2.isDigit ∧ c3.isDigit ∧ c4.isDigit then
      some (((charVal c1 * 10 + charVal c2) * 10 + charVal c3) * 10 +
        charVal c4, rest)
    else none
  | _ => none

/-- Embeds `datetime.strptime` over the modelled directives: fields not
mentioned by the format keep their defaults (year 1900, month 1, day 1,
time 00:00:00.000000), and the whole string must be consumed. -/
def strptimeAux (toks : List FmtTok) (cs : List Char) (acc : DateTime) :
    Option DateTime :=
  match toks with
  | [] => if cs = [] then some acc else none
  | FmtTok.lit c :: rest =>
    match cs with
    | c2 :: cs2 => if c2 = c then strptimeAux rest cs2 acc else none
    | [] => none
  | FmtTok.Y :: rest =>
    match parse4 cs with
    | some (v, cs2) => strptimeAux rest cs2 { acc with year := v }
    | none => none
  | FmtTok.m :: rest =>
    match parse2 1 12 cs with
    | some (v, cs2) => strptimeAux rest cs2 { acc with month := v }
    | none => none
  | FmtTok.d :: rest =>
    match parse2 1 31 cs with
    | some (v, cs2) => strptimeAux rest cs2 { acc with day := v }
    | none => none
  | FmtTok.H :: rest =>
    match parse2 0 23 cs with
    | some (v, cs2) => strptimeAux rest cs2 { acc with hour := v }
    | none => none
  | FmtTok.M :: rest =>
    match parse2 0 59 cs with
    | some (v, cs2) => strptimeAux rest cs2 { acc with minute := v }
    | none => none
  | FmtTok.S :: rest =>
    match parse2 0 59 cs with
    | some (v, cs2) => strptimeAux rest cs2 { acc with second := v }
    | none => none

def strptime (toks : List FmtTok) (cs : List Char) : Option DateTime :=
  strptimeAux toks cs ⟨1900, 1, 1, 0, 0, 0, 0⟩

/-- Embeds the time part of `replica_t.get_snapshot_full_name`: the name of
a snapshot after the `{pool}/{dataset}@` part, namely
`{snapshot_prefix}{snapshot.datetime.strftime(date_fstring)}`. -/
def renderSnapName (snapPre : List Char) (toks : List FmtTok)
    (dt : DateTime) : List Char :=
  snapPre ++ strftime toks dt

/-- Embeds `str.startswith` plus `str.removeprefix` as used in
`replica_t.list`. -/
def stripPre (pre l : List Char) : Option (List Char) :=
  match pre, l with
  | [], l => some l
  | p :: pre2, c :: l2 => if c = p then stripPre pre2 l2 else none
  | _ :: _, [] => none

/-- Embeds the parsing direction of `replica_t.list` for one name (already
stripped of `{pool}/{dataset}@`): skip the name unless it starts with the
snapshot prefix, then `datetime.strptime(time_s, date_fstring)`.  `none`
here covers both the silent skip and the parse failure; the round-trip
claims only concern names this returns a timestamp for. -/
def parseSnapName (snapPre : List Char) (toks : List FmtTok)
    (name : List Char) : Option DateTime :=
  match stripPre snapPre name with
  | none => none
  | some time_s => strptime toks time_s

/-! ### replica_t.list over a backend result (src/zam/config.py, claim C8)

`subprocess.run` output is a record of return code, stderr and stdout.
`replica_t.list` first calls `pretty_check_returncode` (raise unless the
return code is zero), then returns `[]` when stderr is exactly
`"no datasets available\n"`, and otherwise parses stdout line by line:
the header line must be `NAME`, empty lines are skipped, each name must
start with `{dataset_full_name}@` (assert), non-ZAM prefixes are skipped,
and the remainder is parsed with `strptime`.  The final `ret.sort()` sorts
by timestamp. -/

structure CmdResult where
  returncode : Int
  stderr : List Char
  stdout : List Char

def dtKey (dt : DateTime) : Nat :=
  ((((dt.year * 13 + dt.month) * 32 + dt.day) * 24 + dt.hour) * 60 +
      dt.minute) * 60 + dt.second

def parseLines (dsPre snapPre : List Char) (toks : List FmtTok) :
    List (List Char) → Except String (List DateTime)
  | [] => Except.ok []
  | line :: rest =>
    if line.length = 0 then parseLines dsPre snapPre toks rest
    else
      match stripPre dsPre line with
      | none => Except.error "assert fullname.startswith(prefix)"
      | some name =>
        match stripPre snapPre name with
        | none => parseLines dsPre snapPre toks rest
        | some time_s =>
          match strptime toks time_s with
          | none => Except.error "strptime raised ValueError"
          | some dt =>
            if renderSnapName snapPre toks dt = name then
              match parseLines dsPre snapPre toks rest with
              | Except.ok dts => Except.ok (dt :: dts)
              | Except.error e => Except.error e
            else Except.error "assert get_snapshot_full_name(snapshot) == fullname"

/-- Embeds `replica_t.list` as a function of the backend call's result. -/
def replica_list (dsPre snapPre : List Char) (toks : List FmtTok)
    (res : CmdResult) : Except String (List DateTime) :=
  if res.returncode ≠ 0 then Except.error "Failed to list snapshots"
  else if res.stderr = ("no datasets available\n").toList then Except.ok []
  else
    match res.stdout.splitOn '\n' with
    | [] => Except.error "assert lines 0 == NAME"
    | header :: lines =>
      if header = ("NAME").toList then
        match parseLines dsPre snapPre toks lines with
        | Except.ok dts =>
          Except.ok (dts.insertionSort (fun a b => dtKey a ≤ dtKey b))
        | Except.error e => Except.error e
      else Except.error "assert lines 0 == NAME"

/-! ### Pruning (claim C7)

The pruner module is absent from the sources (`src/zam/zam.py` imports
`zam.pruner`, which is not in the tree, and the historical `src/zam.py`
stubs `do_prune` to "never"), so the algorithm is modelled from the
specification, §4.5. -/

structure PruneWindow where
  max_age : Option Int
  period : Int
deriving DecidableEq

/-- Modelled from the spec: a tier's age range "covers" a snapshot when its
age is at most `max_age`, or always when `max_age` is absent. -/
def tierCovers (now : Int) (w : PruneWindow) (t : Int) : Prop :=
  match w.max_age with
  | none => True
  | some a => now - t ≤ a

instance (now : Int) (w : PruneWindow) (t : Int) :
    Decidable (tierCovers now w t) := by
  unfold tierCovers; cases w.max_age <;> infer_instance

/-- Modelled from the spec: within a tier's sub-range, walk oldest to
newest keeping a "last kept" marker; a snapshot is kept when its gap from
the last kept one is at least the tier's `period`, otherwise it is a
deletion candidate for that tier. -/
def tierKeepWalk (period lastKept : Int) : List Int → List Int
  | [] => []
  | t :: rest =>
    if period ≤ t - lastKept then t :: tierKeepWalk period t rest
    else tierKeepWalk period lastKept rest

/-- Modelled from the spec: the snapshots a tier keeps — the oldest of its
covered sub-range (the initial "last kept" marker) plus the walk. -/
def tierKept (now : Int) (w : PruneWindow) (snaps : List Int) : List Int :=
  match snaps.filter (fun t => decide (tierCovers now w t)) with
  | [] => []
  | t :: rest => t :: tierKeepWalk w.period t rest

/-- Modelled from the spec: after pruning, a snapshot is retained iff it is
the newest (never eligible for deletion) or some tier keeps it; a snapshot
is deleted only when it is a deletion candidate under every tier covering
it. `snaps` is ascending, so the newest is the last. -/
def pruneRetained (now : Int) (ws : List PruneWindow) (snaps : List Int) :
    List Int :=
  snaps.filter fun t =>
    decide (t = snaps.getLastD 0) ||
      ws.any fun w => decide (t ∈ tierKept now w snaps)

/-! ### The scheduler and CPython's heapq (src/zam/scheduler.py)

`__PrioritizedTask` is a pair of a due time (`start`) and a task;
`order=True` with `compare=False` on the task field means `<` compares the
`start` fields only.  The task itself is represented by an identifier; a
task's behaviour (the successive values returned by `getNextRuntime`) is a
function `Nat → Nat → Option Int` from task id and call index to the
returned UTC time.

`scheduler.run` drives the loop through `heapq`; `siftdownAux`,
`siftupLoop`, `pySiftup`, `pyHeapify`, `pyHeappop` and `pyHeapreplace`
embed CPython's `heapq._siftdown`, `_siftup`, `heapify`, `heappop` and
`heapreplace` verbatim (list indexing becomes `nth`, out-of-range reads
return a default that the algorithm never actually uses). -/

structure PT where
  start : Int
  id : Nat
deriving DecidableEq

instance : Inhabited PT := ⟨⟨0, 0⟩⟩

def nth (l : List PT) (i : Nat) : PT := l.getD i default

/-- Embeds `heapq._siftdown(heap, startpos, pos)` with the moving item held
explicitly: while `pos > startpos` and `newitem < heap[parentpos]`, move the
parent down; finally store `newitem`. -/
def siftdownAux (l : List PT) (s pos : Nat) (ni : PT) : List PT :=
  if h : s < pos then
    if ni.start < (nth l ((pos - 1) / 2)).start then
      siftdownAux (l.set pos (nth l ((pos - 1) / 2))) s ((pos - 1) / 2) ni
    else l.set pos ni
  else l.set pos ni
termination_by pos
decreasing_by omega

/-- Embeds the loop of `heapq._siftup(heap, pos)`: bubble the smaller child
up until a leaf is reached, then place `newitem` and sift it back towards
`startpos` with `_siftdown`. -/
def siftupLoop (l : List PT) (s pos : Nat) (ni : PT) : List PT :=
  if h : 2 * pos + 1 < l.length then
    if 2 * pos + 2 < l.length ∧
        ¬ (nth l (2 * pos + 1)).start < (nth l (2 * pos + 2)).start then
      siftupLoop (l.set pos (nth l (2 * pos + 2))) s (2 * pos + 2) ni
    else
      siftupLoop (l.set pos (nth l (2 * pos + 1))) s (2 * pos + 1) ni
  else
    siftdownAux (l.set pos ni) s pos ni
termination_by l.length - pos
decreasing_by
  · simp only [List.length_set]; omega
  · simp only [List.length_set]; omega

/-- Embeds `heapq._siftup(heap, pos)`. -/
def pySiftup (l : List PT) (pos : Nat) : List PT :=
  siftupLoop l pos pos (nth l pos)

def heapifyAux (l : List PT) : Nat → List PT
  | 0 => l
  | i + 1 => heapifyAux (pySiftup l i) i

/-- Embeds `heapq.heapify(x)`: `for i in reversed(range(n//2)): _siftup(x, i)`. -/
def pyHeapify (l : List PT) : List PT := heapifyAux l (l.length / 2)

/-- Embeds `heapq.heappop(heap)` (the resulting heap; the scheduler drops
the returned item). -/
def pyHeappop (l : List PT) : List PT :=
  match l with
  | [] => []
  | _ :: _ =>
    let lastelt := nth l (l.length - 1)
    let rest := l.dropLast
    if rest.isEmpty then [] else pySiftup (rest.set 0 lastelt) 0

/-- Embeds `heapq.heapreplace(heap, item)` (the resulting heap). -/
def pyHeapreplace (l : List PT) (item : PT) : List PT :=
  pySiftup (l.set 0 item) 0

/-- Child relation of the implicit binary tree on heap indices: `j` is the
left or right child of `i`. -/
def Child (i j : Nat) : Prop := j = 2 * i + 1 ∨ j = 2 * i + 2

/-- Ancestor-or-self on heap indices: the parent chain from `p` reaches
`r`. -/
inductive Anc : Nat → Nat → Prop
  | refl (r : Nat) : Anc r r
  | step (r p : Nat) : Anc r ((p - 1) / 2) → 0 < p → Anc r p

/-- The binary-min-heap property restricted to edges whose parent index is
at least `s`. -/
def HeapFrom (l : List PT) (s : Nat) : Prop :=
  ∀ i j, s ≤ i → Child i j → j < l.length →
    (nth l i).start ≤ (nth l j).start

/-- The heapq invariant: `heap[k] <= heap[2*k+1]` and
`heap[k] <= heap[2*k+2]` everywhere. -/
def IsHeap (l : List PT) : Prop := HeapFrom l 0

/-- One executed task: its id, the due time read from the heap root, and
the value of `utcnow()` at the moment `task.run()` is invoked. -/
structure ExecEvent where
  id : Nat
  due : Int
  time : Int
deriving DecidableEq

/-- Scheduler state: the heap, the simulated UTC clock, and how many times
each task's `getNextRuntime` has been called. -/
structure SchedState where
  heap : List PT
  now : Int
  calls : Nat → Nat

/-- Embeds the set-up of `scheduler.run(tasks)`: map `getNextRuntime` over
the tasks, drop the `None`s, `heapq.heapify`. -/
def schedInit (env : Nat → Nat → Option Int) (ids : List Nat) (t0 : Int) :
    SchedState :=
  { heap := pyHeapify (ids.filterMap fun i => (env i 0).map fun t => PT.mk t i)
    now := t0
    calls := fun i => if i ∈ ids then 1 else 0 }

/-- Embeds one iteration of the `while len(heap) > 0` loop of
`scheduler.run`: read the root's task and due time, sleep
`max(0, start - now)` (so the clock becomes `max now start`, and the
`assert now >= start` always holds), run the task, requery
`getNextRuntime`, and `heappop` on `None` or `heapreplace` otherwise.
Returns `none` exactly when the loop has terminated. -/
def schedStep (env : Nat → Nat → Option Int) (s : SchedState) :
    Option (SchedState × ExecEvent) :=
  match s.heap with
  | [] => none
  | root :: _ =>
    let now2 := max s.now root.start
    let k := s.calls root.id
    let heap2 :=
      match env root.id k with
      | none => pyHeappop s.heap
      | some t => pyHeapreplace s.heap ⟨t, root.id⟩
    some ({ heap := heap2, now := now2,
            calls := Function.update s.calls root.id (k + 1) },
          ⟨root.id, root.start, now2⟩)

/-- The state after `n` loop iterations (constant once the loop ends). -/
def schedStates (env : Nat → Nat → Option Int) (s0 : SchedState) :
    Nat → SchedState
  | 0 => s0
  | n + 1 =>
    match schedStep env (schedStates env s0 n) with
    | none => schedStates env s0 n
    | some (s2, _) => s2

/-- The event executed by iteration `n`, if the loop is still running. -/
def schedEvent (env : Nat → Nat → Option Int) (s0 : SchedState) (n : Nat) :
    Option ExecEvent :=
  (schedStep env (schedStates env s0 n)).map Prod.snd

/-- The execution trace of the first `n` iterations. -/
def schedTrace (env : Nat → Nat → Option Int) (s0 : SchedState) (n : Nat) :
    List ExecEvent :=
  (List.range n).filterMap (schedEvent env s0)

/-! ### Concrete instances used by individual claims -/

/-- The task behaviour of the spec's fairness example (and of the repo's
own `tests/test_scheduler.py`): task 0 reports due times +1m, +0m, +3m then
`None`; task 1 reports +2m then `None`. -/
def fairEnv : Nat → Nat → Option Int := fun i k =>
  if i = 0 then
    if k = 0 then some 60 else if k = 1 then some 0
    else if k = 2 then some 180 else none
  else if i = 1 then
    if k = 0 then some 120 else none
  else none

/-- Two tasks that report the identical due time +100s once and then opt
out; inserted in the order task 0, task 1. -/
def tieEnv : Nat → Nat → Option Int := fun i k =>
  if i = 0 then (if k = 0 then some 100 else none)
  else if i = 1 then (if k = 0 then some 100 else none)
  else none

/-- The default snapshot name prefix of `replica_t`. -/
def zamPre : List Char := ("ZAM-").toList

/-- A valid timestamp carrying sub-second precision (microsecond 500000),
as `datetime.utcnow()` produces. -/
def dtMicro : DateTime := ⟨2021, 3, 5, 12, 30, 45, 500000⟩

/-- The retention scenario of the spec: daily snapshots spanning 30 days
(31 snapshots, one per day), observed at day 30. -/
def pruneScenarioSnaps : List Int := (List.range 31).map fun i => (i : Int) * 86400

/-- The retention scenario's Windows: one snapshot per day for 7 days, one
per 7 days forever. -/
def pruneScenarioWindows : List PruneWindow :=
  [⟨some (7 * 86400), 86400⟩, ⟨none, 7 * 86400⟩]

def pruneScenarioNow : Int := 30 * 86400

/-- The retained snapshots after pruning the scenario. -/
def retained30 : List Int :=
  pruneRetained pruneScenarioNow pruneScenarioWindows pruneScenarioSnaps

/-! ## Theorems -/

/-! ### Window validation (claims C9, C10) -/

theorem replica_post_init_ok_of_sorted (ws : List window_t)
    (hok : replica_post_init ws = Except.ok ()) :
    ws.Sorted (fun a b => get_window_max_age a ≤ get_window_max_age b) ∧
    ws.Sorted (fun a b => get_window_period a ≤ get_window_period b) := by
  unfold replica_post_init at hok
  by_cases h1 : ws = pySortedByKey get_window_max_age ws
  · rw [if_neg (fun hc => hc h1)] at hok
    by_cases h2 : ws = pySortedByKey get_window_period ws
    · exact ⟨(pySortedByKey_eq_self_iff _ _).mp h1.symm,
        (pySortedByKey_eq_self_iff _ _).mp h2.symm⟩
    · rw [if_pos h2] at hok; cases hok
  · rw [if_pos h1] at hok; cases hok

/-- C9 (counterexample): the window list
`[max_age 7d period 1d, max_age 0s period 1d]` is not sorted by ascending
max_age under the spec's reading (absent = infinite; a present zero-length
max_age keeps its value, so the keys are 7d, 0s — descending), yet
`replica_t.__post_init__` accepts it without raising, because Python's
falsy `or` maps the zero max_age to `timedelta.max`. -/
theorem window_validation_spec_order_counterexample :
    ¬ ([window_t.mk (some 604800) 86400, window_t.mk (some 0) 86400].Sorted
        (fun a b => spec_window_max_age a ≤ spec_window_max_age b)) ∧
    replica_post_init
      [window_t.mk (some 604800) 86400, window_t.mk (some 0) 86400] =
      Except.ok () := by
  constructor
  · intro h
    have := (List.sorted_cons.mp h).1 _ (List.mem_singleton_self _)
    simp [spec_window_max_age] at this
  · decide

/-- C9 (amended): constructing a Replica whose Window list is not sorted by
ascending max_age — an absent *or zero-length* max_age sorting as infinite,
last — or whose periods are not non-decreasing raises a ValueError at
construction; in particular Windows
`[max_age 7d period 7d, max_age 30d period 1d]` are rejected. -/
theorem window_validation_rejects_unsorted (ws : List window_t)
    (h : ¬ ws.Sorted (fun a b => get_window_max_age a ≤ get_window_max_age b)
       ∨ ¬ ws.Sorted (fun a b => get_window_period a ≤ get_window_period b)) :
    replica_post_init ws ≠ Except.ok () := by
  intro hok
  rcases replica_post_init_ok_of_sorted ws hok with ⟨h1, h2⟩
  rcases h with h | h
  · exact h h1
  · exact h h2

theorem window_validation_rejects_unsorted_witness :
    (¬ ([window_t.mk (some 604800) 604800,
         window_t.mk (some (30 * 86400)) 86400].Sorted
          (fun a b => get_window_max_age a ≤ get_window_max_age b))
      ∨ ¬ ([window_t.mk (some 604800) 604800,
            window_t.mk (some (30 * 86400)) 86400].Sorted
          (fun a b => get_window_period a ≤ get_window_period b))) ∧
    replica_post_init
      [window_t.mk (some 604800) 604800,
       window_t.mk (some (30 * 86400)) 86400] ≠ Except.ok () :=
  ⟨Or.inr (by decide),
   window_validation_rejects_unsorted _ (Or.inr (by decide))⟩

/-- C10: in the window-ordering validation, a zero-length max_age is mapped
by the sort key to `timedelta.max`, exactly like an absent max_age (Python's
`or` treats both as falsy); consequently the list
`[max_age 0s, max_age 7d]` (same periods) is rejected as unsorted even
though 0s < 7d numerically. -/
theorem zero_max_age_sorts_as_infinite :
    (∀ p : Timedelta, get_window_max_age (window_t.mk (some 0) p) =
      get_window_max_age (window_t.mk none p)) ∧
    replica_post_init
      [window_t.mk (some 0) 86400, window_t.mk (some 604800) 86400] ≠
      Except.ok () ∧
    (0 : Int) < 604800 := by
  refine ⟨fun p => rfl, by decide, by decide⟩

/-! ### Replication (claims C5, C6) -/

theorem walkPairs_ok_mem (pairs : List (Snapshot × Snapshot)) :
    ∀ (d d2 : List Snapshot) (log : List Transfer),
      walkPairs d pairs = Except.ok (d2, log) →
      (∀ x ∈ d, x ∈ d2) ∧ (∀ pc ∈ pairs, pc.1 ∈ d2 ∧ pc.2 ∈ d2) := by
  induction pairs with
  | nil =>
    intro d d2 log h
    rw [walkPairs] at h
    injection h with h
    injection h with h1 h2
    subst h1
    exact ⟨fun x hx => hx, by simp⟩
  | cons pc rest ih =>
    intro d d2 log h
    obtain ⟨previous, current⟩ := pc
    rw [walkPairs] at h
    by_cases hp : previous ∈ d
    · rw [if_pos hp] at h
      by_cases hc : current ∈ d
      · rw [if_pos hc] at h
        rcases ih d d2 log h with ⟨hsub, hpairs⟩
        refine ⟨hsub, ?_⟩
        intro x hx
        rcases List.mem_cons.mp hx with rfl | hx
        · exact ⟨hsub _ hp, hsub _ hc⟩
        · exact hpairs x hx
      · rw [if_neg hc] at h
        cases hw : walkPairs (d ++ [current]) rest with
        | error e => rw [hw] at h; cases h
        | ok p =>
          obtain ⟨d3, log3⟩ := p
          rw [hw] at h
          injection h with h
          injection h with h1 h2
          subst h1
          subst h2
          rcases ih _ _ _ hw with ⟨hsub, hpairs⟩
          have hsub2 : ∀ x ∈ d, x ∈ d3 := fun x hx =>
            hsub x (List.mem_append.mpr (Or.inl hx))
          refine ⟨hsub2, ?_⟩
          intro x hx
          rcases List.mem_cons.mp hx with rfl | hx
          · exact ⟨hsub2 _ hp, hsub _ (List.mem_append.mpr (Or.inr (by simp)))⟩
          · exact hpairs x hx
    · rw [if_neg hp] at h
      cases h

theorem walkPairs_all_present (pairs : List (Snapshot × Snapshot)) :
    ∀ d : List Snapshot, (∀ pc ∈ pairs, pc.1 ∈ d ∧ pc.2 ∈ d) →
      walkPairs d pairs = Except.ok (d, []) := by
  induction pairs with
  | nil => intro d _; rw [walkPairs]
  | cons pc rest ih =>
    intro d hall
    obtain ⟨previous, current⟩ := pc
    rw [walkPairs]
    obtain ⟨hp, hc⟩ := hall (previous, current) (List.mem_cons_self _ _)
    rw [if_pos hp, if_pos hc]
    exact ih d fun pc hpc => hall pc (List.mem_cons_of_mem _ hpc)

theorem walkPairs_fresh (l : List Snapshot) :
    ∀ (a : Snapshot) (d : List Snapshot), a ∈ d → (∀ x ∈ l, x ∉ d) →
      l.Nodup →
      walkPairs d ((a :: l).zip l) =
        Except.ok (d ++ l,
          ((a :: l).zip l).map fun pc => (some pc.1, pc.2)) := by
  induction l with
  | nil => intro a d ha _ _; simp [walkPairs]
  | cons b t ih =>
    intro a d ha hnotin hnd
    have hzip : (a :: b :: t).zip (b :: t) = (a, b) :: (b :: t).zip t := rfl
    rw [hzip, walkPairs, if_pos ha,
      if_neg (hnotin b (by simp))]
    rw [ih b (d ++ [b]) (by simp) ?_ (List.Nodup.of_cons hnd)]
    · simp
    · intro x hx hmem
      rcases List.mem_append.mp hmem with hmem | hmem
      · exact hnotin x (List.mem_cons_of_mem _ hx) hmem
      · rcases List.mem_singleton.mp hmem with rfl
        exact (List.nodup_cons.mp hnd).1 hx

theorem runDest_fresh (s : List Snapshot) (hnd : s.Nodup) (hne : s ≠ []) :
    runDest s none =
      Except.ok (s, (none, s.headI) ::
        ((s.zip s.tail).map fun pc => (some pc.1, pc.2))) := by
  obtain ⟨a, l, rfl⟩ := List.exists_cons_of_ne_nil hne
  rw [runDest]
  simp only [List.headI, List.tail_cons]
  rw [walkPairs_fresh l a [a] (by simp) ?_ (List.Nodup.of_cons hnd)]
  · simp
  · intro x hx hmem
    rcases List.mem_singleton.mp hmem with rfl
    exact (List.nodup_cons.mp hnd).1 hx

theorem runDest_seeded_mem (s : List Snapshot) (l d2 : List Snapshot)
    (log : List Transfer) (hseed : s.headI ∈ l)
    (h : runDest s (some l) = Except.ok (d2, log)) :
    ∀ x ∈ s, x ∈ d2 := by
  rw [runDest] at h
  rcases walkPairs_ok_mem _ _ _ _ h with ⟨hsub, hpairs⟩
  intro x hx
  cases s with
  | nil => cases hx
  | cons a t =>
    rcases List.mem_cons.mp hx with rfl | hx
    · exact hsub _ hseed
    · have : x ∈ (t : List Snapshot) := hx
      have hmap : ((a :: t).zip t).map Prod.snd = t :=
        List.map_snd_zip _ _ (by simp)
      rw [← hmap] at this
      rcases List.mem_map.mp this with ⟨pc, hpc, rfl⟩
      exact (hpairs pc hpc).2

/-- C5 (counterexample): with a single source snapshot and a pre-existing
destination dataset that does not hold it, `replicator.run` completes
without error and without any transfer (the consecutive-pair walk is empty),
leaving a source snapshot absent from the destination. -/
theorem replication_completeness_counterexample :
    replicator_run [5] [some []] = Except.ok [([], [])] ∧
    ¬ (∀ x ∈ ([5] : List Snapshot), x ∈ ([] : List Snapshot)) := by
  constructor
  · rfl
  · decide

/-- C5 (amended): for a non-empty, strictly ascending source snapshot list,
if every *pre-existing* destination already holds the source's oldest
snapshot, then after `run()` completes every snapshot present in the
source's set when the run began is present on every destination; a
destination dataset that did not exist ends up with exactly the source's
list, via a full transfer of the source's oldest snapshot followed by one
incremental transfer per consecutive source pair, in ascending order. -/
theorem replication_run_syncs (s : List Snapshot)
    (dests : List (Option (List Snapshot)))
    (hsort : s.Sorted (· < ·))
    (hseed : ∀ l, some l ∈ dests → s.headI ∈ l)
    (res : List (List Snapshot × List Transfer))
    (h : replicator_run s dests = Except.ok res) :
    List.Forall₂ (fun d r =>
      (∀ x ∈ s, x ∈ r.1) ∧
      (d = none → r.1 = s ∧
        r.2 = (none, s.headI) ::
          ((s.zip s.tail).map fun pc => (some pc.1, pc.2))))
      dests res := by
  have hnd : s.Nodup := hsort.nodup
  rw [replicator_run] at h
  by_cases hs : s.isEmpty
  · rw [if_pos hs] at h; cases h
  · rw [if_neg hs] at h
    have hne : s ≠ [] := by
      intro habs; rw [habs] at hs; exact hs rfl
    clear hs
    induction dests generalizing res with
    | nil =>
      rw [runDests] at h
      injection h with h
      subst h
      exact List.Forall₂.nil
    | cons d rest ih =>
      rw [runDests] at h
      cases hd : runDest s d with
      | error e => rw [hd] at h; cases h
      | ok r =>
        rw [hd] at h
        cases hr : runDests s rest with
        | error e => rw [hr] at h; cases h
        | ok rs =>
          rw [hr] at h
          injection h with h
          subst h
          refine List.Forall₂.cons ?_
            (ih (fun l hl => hseed l (List.mem_cons_of_mem _ hl)) rs hr)
          cases d with
          | none =>
            rw [runDest_fresh s hnd hne] at hd
            injection hd with hd
            subst hd
            exact ⟨fun x hx => hx, fun _ => ⟨rfl, rfl⟩⟩
          | some l =>
            obtain ⟨d2, log⟩ := r
            refine ⟨runDest_seeded_mem s l d2 log
              (hseed l (by simp)) hd, ?_⟩
            intro habs
            exact Option.noConfusion habs

theorem replication_run_syncs_witness :
    ([1, 2, 3] : List Snapshot).Sorted (· < ·) ∧
    (∀ l : List Snapshot, some l ∈ ([none] : List (Option (List Snapshot))) →
      ([1, 2, 3] : List Snapshot).headI ∈ l) ∧
    replicator_run [1, 2, 3] [none] =
      Except.ok [([1, 2, 3], [(none, 1), (some 1, 2), (some 2, 3)])] ∧
    List.Forall₂ (fun d r =>
      (∀ x ∈ ([1, 2, 3] : List Snapshot), x ∈ r.1) ∧
      (d = none → r.1 = [1, 2, 3] ∧
        r.2 = (none, ([1, 2, 3] : List Snapshot).headI) ::
          ((([1, 2, 3] : List Snapshot).zip
            ([1, 2, 3] : List Snapshot).tail).map
              fun pc => (some pc.1, pc.2))))
      ([none] : List (Option (List Snapshot)))
      [([1, 2, 3], [(none, 1), (some 1, 2), (some 2, 3)])] :=
  ⟨by decide, by simp, by rfl,
   replication_run_syncs [1, 2, 3] [none] (by decide) (by simp) _ (by rfl)⟩

/-- C6: a Replication run over destinations that all exist and already hold
every source snapshot performs zero transfers and changes nothing — hence a
second run immediately after a completed run, with no new source snapshots,
performs zero `clone_to` calls. -/
theorem replication_idempotent (s : List Snapshot)
    (dests : List (Option (List Snapshot)))
    (hne : s ≠ [])
    (hnn : none ∉ dests)
    (hall : ∀ d ∈ dests, ∀ x ∈ s, x ∈ d.getD []) :
    replicator_run s dests =
      Except.ok (dests.map fun d => (d.getD [], [])) := by
  rw [replicator_run, if_neg (by simpa using hne)]
  induction dests with
  | nil => rw [runDests]; rfl
  | cons d rest ih =>
    rw [runDests]
    cases d with
    | none => exact absurd (by simp) hnn
    | some l =>
      have hd : runDest s (some l) = Except.ok (l, []) := by
        rw [runDest]
        refine walkPairs_all_present _ _ ?_
        intro pc hpc
        rcases List.of_mem_zip hpc with ⟨h1, h2⟩
        exact ⟨hall (some l) (by simp) _ h1,
          hall (some l) (by simp) _ (List.mem_of_mem_tail h2)⟩
      rw [hd, ih (fun habs => hnn (List.mem_cons_of_mem _ habs))
        (fun d hd x hx => hall d (List.mem_cons_of_mem _ hd) x hx)]
      rfl

theorem replication_idempotent_witness :
    ([1, 2, 3] : List Snapshot) ≠ [] ∧
    none ∉ ([some [1, 2, 3], some [0, 1, 2, 3]] :
      List (Option (List Snapshot))) ∧
    (∀ d ∈ ([some [1, 2, 3], some [0, 1, 2, 3]] :
        List (Option (List Snapshot))),
      ∀ x ∈ ([1, 2, 3] : List Snapshot), x ∈ d.getD []) ∧
    replicator_run [1, 2, 3] [some [1, 2, 3], some [0, 1, 2, 3]] =
      Except.ok [([1, 2, 3], []), ([0, 1, 2, 3], [])] :=
  ⟨by decide, by decide, by decide,
   replication_idempotent [1, 2, 3] [some [1, 2, 3], some [0, 1, 2, 3]]
     (by decide) (by decide) (by decide)⟩

/-! ### Listing a non-existent dataset (claim C8) -/

/-- C8: when the backend reports that the dataset does not exist (return
code 0 with stderr exactly the "no datasets available" message),
`replica_t.list` returns an empty sequence instead of raising — unlike an
existing dataset with zero managed snapshots, which flows through stdout
parsing. -/
theorem list_no_dataset_empty (dsPre snapPre : List Char)
    (toks : List FmtTok) (res : CmdResult)
    (hrc : res.returncode = 0)
    (herr : res.stderr = ("no datasets available\n").toList) :
    replica_list dsPre snapPre toks res = Except.ok [] := by
  rw [replica_list, if_neg (by rw [hrc]; exact fun h => h rfl), if_pos herr]

theorem list_no_dataset_empty_witness :
    (CmdResult.mk 0 (("no datasets available\n").toList) []).returncode = 0 ∧
    (CmdResult.mk 0 (("no datasets available\n").toList) []).stderr =
      ("no datasets available\n").toList ∧
    replica_list zamPre zamPre defaultFmt
      (CmdResult.mk 0 (("no datasets available\n").toList) []) =
      Except.ok [] :=
  ⟨rfl, rfl,
   list_no_dataset_empty zamPre zamPre defaultFmt _ rfl rfl⟩

/-! ### Snapshot-name round-trip (claim C4) -/

theorem stripPre_append (pre : List Char) :
    ∀ l, stripPre pre (pre ++ l) = some l := by
  induction pre with
  | nil => intro l; rfl
  | cons p pre2 ih => intro l; simp [stripPre, ih]

theorem charVal_digitChar (n : Nat) (h : n < 10) :
    charVal (digitChar n) = n := by
  interval_cases n <;> rfl

theorem isDigit_digitChar (n : Nat) (h : n < 10) :
    (digitChar n).isDigit = true := by
  interval_cases n <;> rfl

theorem natToDigits_two (n : Nat) :
    natToDigits 2 n = [digitChar (n / 10 % 10), digitChar (n % 10)] := by
  simp [natToDigits, Nat.div_div_eq_div_mul]

theorem natToDigits_four (n : Nat) :
    natToDigits 4 n =
      [digitChar (n / 1000 % 10), digitChar (n / 100 % 10),
       digitChar (n / 10 % 10), digitChar (n % 10)] := by
  simp [natToDigits, Nat.div_div_eq_div_mul]

theorem parse2_render (lo hi n : Nat) (r : List Char)
    (h1 : lo ≤ n) (h2 : n ≤ hi) (h3 : hi ≤ 99) :
    parse2 lo hi (natToDigits 2 n ++ r) = some (n, r) := by
  have hn : n ≤ 99 := le_trans h2 h3
  rw [natToDigits_two]
  simp only [List.cons_append, List.nil_append]
  have e1 : charVal (digitChar (n / 10 % 10)) = n / 10 % 10 :=
    charVal_digitChar _ (by omega)
  have e2 : charVal (digitChar (n % 10)) = n % 10 :=
    charVal_digitChar _ (by omega)
  simp only [parse2]
  rw [if_pos ⟨isDigit_digitChar _ (by omega), isDigit_digitChar _ (by omega),
    by rw [e1, e2]; omega, by rw [e1, e2]; omega⟩]
  rw [e1, e2]
  have hval : n / 10 % 10 * 10 + n % 10 = n := by omega
  rw [hval]

theorem parse4_render (n : Nat) (r : List Char) (h : n ≤ 9999) :
    parse4 (natToDigits 4 n ++ r) = some (n, r) := by
  rw [natToDigits_four]
  simp only [List.cons_append, List.nil_append]
  simp only [parse4]
  rw [if_pos ⟨isDigit_digitChar _ (by omega), isDigit_digitChar _ (by omega),
    isDigit_digitChar _ (by omega), isDigit_digitChar _ (by omega)⟩]
  rw [charVal_digitChar (n / 1000 % 10) (by omega),
    charVal_digitChar (n / 100 % 10) (by omega),
    charVal_digitChar (n / 10 % 10) (by omega),
    charVal_digitChar (n % 10) (by omega)]
  have hval : ((n / 1000 % 10 * 10 + n / 100 % 10) * 10 + n / 10 % 10) * 10 +
      n % 10 = n := by omega
  rw [hval]

theorem strptimeAux_lit (c : Char) (rest : List FmtTok) (cs : List Char)
    (acc : DateTime) :
    strptimeAux (FmtTok.lit c :: rest) (c :: cs) acc =
      strptimeAux rest cs acc := by
  rw [strptimeAux]
  simp

theorem strptimeAux_Y (rest : List FmtTok) (cs : List Char) (acc : DateTime)
    (v : Nat) (cs2 : List Char) (h : parse4 cs = some (v, cs2)) :
    strptimeAux (FmtTok.Y :: rest) cs acc =
      strptimeAux rest cs2 { acc with year := v } := by
  rw [strptimeAux, h]

theorem strptimeAux_m (rest : List FmtTok) (cs : List Char) (acc : DateTime)
    (v : Nat) (cs2 : List Char) (h : parse2 1 12 cs = some (v, cs2)) :
    strptimeAux (FmtTok.m :: rest) cs acc =
      strptimeAux rest cs2 { acc with month := v } := by
  rw [strptimeAux, h]

theorem strptimeAux_d (rest : List FmtTok) (cs : List Char) (acc : DateTime)
    (v : Nat) (cs2 : List Char) (h : parse2 1 31 cs = some (v, cs2)) :
    strptimeAux (FmtTok.d :: rest) cs acc =
      strptimeAux rest cs2 { acc with day := v } := by
  rw [strptimeAux, h]

theorem strptimeAux_H (rest : List FmtTok) (cs : List Char) (acc : DateTime)
    (v : Nat) (cs2 : List Char) (h : parse2 0 23 cs = some (v, cs2)) :
    strptimeAux (FmtTok.H :: rest) cs acc =
      strptimeAux rest cs2 { acc with hour := v } := by
  rw [strptimeAux, h]

theorem strptimeAux_M (rest : List FmtTok) (cs : List Char) (acc : DateTime)
    (v : Nat) (cs2 : List Char) (h : parse2 0 59 cs = some (v, cs2)) :
    strptimeAux (FmtTok.M :: rest) cs acc =
      strptimeAux rest cs2 { acc with minute := v } := by
  rw [strptimeAux, h]

theorem strptimeAux_S (rest : List FmtTok) (cs : List Char) (acc : DateTime)
    (v : Nat) (cs2 : List Char) (h : parse2 0 59 cs = some (v, cs2)) :
    strptimeAux (FmtTok.S :: rest) cs acc =
      strptimeAux rest cs2 { acc with second := v } := by
  rw [strptimeAux, h]

theorem yearDigits_of_ge_1000 (y : Nat) (h1 : 1000 ≤ y) :
    yearDigits y = natToDigits 4 y := by
  unfold yearDigits
  rw [if_neg (by omega), if_neg (by omega), if_neg (by omega)]

theorem strptime_strftime_default (dt : DateTime) (hv : dt.Valid)
    (hm : dt.microsecond = 0) (hy : 1000 ≤ dt.year) :
    strptime defaultFmt (strftime defaultFmt dt) = some dt := by
  obtain ⟨y, mo, d, h, mi, s, μ⟩ := dt
  obtain ⟨h1, h2, h3, h4, h5, h6, h7, h8, h9, h10⟩ := hv
  have hm2 : μ = 0 := hm
  subst hm2
  have hy2 : 1000 ≤ y := hy
  unfold strptime
  simp only [defaultFmt, strftime]
  rw [yearDigits_of_ge_1000 y hy2]
  rw [strptimeAux_Y _ _ _ _ _ (parse4_render y _ h2)]
  rw [strptimeAux_lit]
  rw [strptimeAux_m _ _ _ _ _ (parse2_render 1 12 mo _ h3 h4 (by omega))]
  rw [strptimeAux_lit]
  rw [strptimeAux_d _ _ _ _ _ (parse2_render 1 31 d _ h5 h6 (by omega))]
  rw [strptimeAux_lit]
  rw [strptimeAux_H _ _ _ _ _ (parse2_render 0 23 h _ (by omega) h7 (by omega))]
  rw [strptimeAux_lit]
  rw [strptimeAux_M _ _ _ _ _ (parse2_render 0 59 mi _ (by omega) h8 (by omega))]
  rw [strptimeAux_lit]
  rw [strptimeAux_S _ _ _ _ _
    (parse2_render 0 59 s ([] : List Char) (by omega) h9 (by omega))]
  rw [strptimeAux]
  rfl

/-- C4 (counterexample): the default timestamp format has whole-second
resolution, so rendering a valid timestamp that carries microseconds
(`datetime.utcnow()` produces such timestamps) and parsing the name back
does not return the original timestamp — the microseconds are lost. -/
theorem naming_roundtrip_counterexample :
    dtMicro.Valid ∧
    parseSnapName zamPre defaultFmt
      (renderSnapName zamPre defaultFmt dtMicro) ≠ some dtMicro := by
  constructor
  · decide
  · decide

/-- The unpadded `%Y` of the platform strftime cannot be read back: the
year 999 renders as three digits, and strptime's `%Y` demands exactly four,
so parsing the rendered name of any year-below-1000 timestamp fails
outright (the program raises `ValueError`). -/
theorem strptime_year999_fails :
    strptime defaultFmt
      (strftime defaultFmt (DateTime.mk 999 3 5 12 30 45 0)) = none := by
  decide

/-- C4 (amended): for every valid timestamp of whole-second resolution
(zero microseconds) whose year has four digits (1000..9999) and every
configured snapshot-name prefix, rendering a Snapshot through the naming
rule with the default timestamp format `%Y-%m-%dT%H:%M:%S` and parsing
the name back (strip prefix, strptime) yields the original timestamp.
The year restriction is forced by the platform strftime, whose `%Y` does
not zero-pad, while strptime's `%Y` requires exactly four digits. -/
theorem naming_roundtrip_default (spre : List Char) (dt : DateTime)
    (hv : dt.Valid) (hm : dt.microsecond = 0) (hy : 1000 ≤ dt.year) :
    parseSnapName spre defaultFmt (renderSnapName spre defaultFmt dt) =
      some dt := by
  rw [parseSnapName, renderSnapName, stripPre_append]
  exact strptime_strftime_default dt hv hm hy

theorem naming_roundtrip_default_witness :
    (DateTime.mk 2021 12 4 14 47 35 0).Valid ∧
    (DateTime.mk 2021 12 4 14 47 35 0).microsecond = 0 ∧
    1000 ≤ (DateTime.mk 2021 12 4 14 47 35 0).year ∧
    parseSnapName zamPre defaultFmt
      (renderSnapName zamPre defaultFmt (DateTime.mk 2021 12 4 14 47 35 0)) =
      some (DateTime.mk 2021 12 4 14 47 35 0) :=
  ⟨by decide, rfl, by decide,
   naming_roundtrip_default zamPre _ (by decide) rfl (by decide)⟩

/-! ### Pruning retention (claim C7) -/

/-- C7 (modelled from the spec, the pruner module being absent from the
sources): pruning daily snapshots spanning 30 days under Windows
`[max_age 7d period 1d, max_age ∞ period 7d]` leaves, among retained
snapshots, gaps of at most 1 day within the last 7 days and at most 7 days
beyond; the newest snapshot is retained; and a snapshot is deleted only if
it is a deletion candidate under every tier covering it. -/
theorem pruning_retention_correct :
    (∀ pc ∈ retained30.zip retained30.tail,
        pruneScenarioNow - pc.1 ≤ 7 * 86400 → pc.2 - pc.1 ≤ 86400) ∧
    (∀ pc ∈ retained30.zip retained30.tail,
        7 * 86400 < pruneScenarioNow - pc.1 → pc.2 - pc.1 ≤ 7 * 86400) ∧
    pruneScenarioSnaps.getLastD 0 ∈ retained30 ∧
    (∀ t ∈ pruneScenarioSnaps, t ∉ retained30 →
      ∀ w ∈ pruneScenarioWindows, tierCovers pruneScenarioNow w t →
        t ∉ tierKept pruneScenarioNow w pruneScenarioSnaps) := by
  decide

/-! ### Heap index arithmetic and basic list lemmas (claims C1–C3) -/

theorem child_gt {i j : Nat} (h : Child i j) : i < j := by
  rcases h with rfl | rfl <;> omega

theorem child_parent {i j : Nat} (h : Child i j) : i = (j - 1) / 2 ∧ 0 < j := by
  rcases h with rfl | rfl <;> constructor <;> omega

theorem child_of_parent {j : Nat} (h : 0 < j) : Child ((j - 1) / 2) j := by
  unfold Child; omega

theorem anc_le {r p : Nat} (h : Anc r p) : r ≤ p := by
  induction h with
  | refl => omega
  | step p hp hpos ih => omega

theorem anc_parent {r p : Nat} (h : Anc r p) (hne : p ≠ r) :
    Anc r ((p - 1) / 2) := by
  cases h with
  | refl => exact absurd rfl hne
  | step p hp hpos => exact hp

theorem anc_child {r p c : Nat} (h : Anc r p) (hc : Child p c) : Anc r c := by
  rcases child_parent hc with ⟨hpar, hpos⟩
  exact Anc.step r c (by rw [← hpar]; exact h) hpos

theorem nth_set_self {l : List PT} {i : Nat} (v : PT) (h : i < l.length) :
    nth (l.set i v) i = v := by
  rw [nth, List.getD_eq_getElem _ _ (by simpa using h), List.getElem_set_self]

theorem nth_set_ne {l : List PT} {i j : Nat} (v : PT) (hne : i ≠ j) :
    nth (l.set i v) j = nth l j := by
  by_cases hj : j < l.length
  · rw [nth, List.getD_eq_getElem _ _ (by simpa using hj),
      List.getElem_set_ne hne, nth, List.getD_eq_getElem _ _ hj]
  · rw [nth, List.getD_eq_default _ _ (by simp; omega), nth,
      List.getD_eq_default _ _ (by omega)]

theorem set_nth_self (l : List PT) (i : Nat) (h : i < l.length) :
    l.set i (nth l i) = l := by
  rw [nth, List.getD_eq_getElem _ _ h, List.set_eq_take_cons_drop _ h,
    ← List.drop_eq_getElem_cons h, List.take_append_drop]

theorem count_set (l : List PT) (i : Nat) (v a : PT) (h : i < l.length) :
    (l.set i v).count a + [nth l i].count a = l.count a + [v].count a := by
  rw [nth, List.getD_eq_getElem _ _ h]
  rw [List.set_eq_take_cons_drop v h]
  conv_rhs => rw [← List.take_append_drop i l, List.drop_eq_getElem_cons h]
  simp only [List.count_append, List.count_cons, List.count_singleton',
    List.count_nil, beq_iff_eq]
  split_ifs <;> omega

theorem set_set_perm (l : List PT) (i j : Nat) (x : PT)
    (hi : i < l.length) (hj : j < l.length) (hij : i ≠ j) :
    ((l.set i (nth l j)).set j x).Perm (l.set i x) := by
  rw [List.perm_iff_count]
  intro a
  have h1 := count_set (l.set i (nth l j)) j x a (by simpa using hj)
  have h2 := count_set l i (nth l j) a hi
  have h3 := count_set l i x a hi
  rw [nth_set_ne _ hij] at h1
  omega

/-! ### Lengths and permutation facts of the heapq operations -/

theorem siftdownAux_length (l : List PT) (s pos : Nat) (ni : PT) :
    (siftdownAux l s pos ni).length = l.length := by
  induction l, s, pos, ni using siftdownAux.induct with
  | case1 l s pos ni h1 h2 ih =>
    unfold siftdownAux
    rw [dif_pos h1, if_pos h2]
    simpa using ih
  | case2 l s pos ni h1 h2 =>
    unfold siftdownAux
    rw [dif_pos h1, if_neg h2]
    simp
  | case3 l s pos ni h1 =>
    unfold siftdownAux
    rw [dif_neg h1]
    simp

theorem siftupLoop_length (l : List PT) (s pos : Nat) (ni : PT) :
    (siftupLoop l s pos ni).length = l.length := by
  induction l, s, pos, ni using siftupLoop.induct with
  | case1 l s pos ni h1 h2 ih =>
    unfold siftupLoop
    rw [dif_pos h1, if_pos h2]
    simpa using ih
  | case2 l s pos ni h1 h2 ih =>
    unfold siftupLoop
    rw [dif_pos h1, if_neg h2]
    simpa using ih
  | case3 l s pos ni h1 =>
    unfold siftupLoop
    rw [dif_neg h1]
    rw [siftdownAux_length]
    simp

theorem pySiftup_length (l : List PT) (pos : Nat) :
    (pySiftup l pos).length = l.length := by
  unfold pySiftup
  rw [siftupLoop_length]

theorem siftdownAux_perm (l : List PT) (s pos : Nat) (ni : PT) :
    pos < l.length → (siftdownAux l s pos ni).Perm (l.set pos ni) := by
  induction l, s, pos, ni using siftdownAux.induct with
  | case1 l s pos ni h1 h2 ih =>
    intro h
    unfold siftdownAux
    rw [dif_pos h1, if_pos h2]
    have hpp : (pos - 1) / 2 < l.length := by omega
    refine (ih (by simpa using hpp)).trans ?_
    exact set_set_perm l pos ((pos - 1) / 2) ni h hpp (by omega)
  | case2 l s pos ni h1 h2 =>
    intro h
    unfold siftdownAux
    rw [dif_pos h1, if_neg h2]
  | case3 l s pos ni h1 =>
    intro h
    unfold siftdownAux
    rw [dif_neg h1]

theorem siftupLoop_perm (l : List PT) (s pos : Nat) (ni : PT) :
    pos = s ∨ pos < l.length → (siftupLoop l s pos ni).Perm (l.set pos ni) := by
  induction l, s, pos, ni using siftupLoop.induct with
  | case1 l s pos ni h1 h2 ih =>
    intro _
    have hpos : pos < l.length := by omega
    have hc : 2 * pos + 2 < l.length := h2.1
    unfold siftupLoop
    rw [dif_pos h1, if_pos h2]
    refine (ih (Or.inr (by simpa using hc))).trans ?_
    exact set_set_perm l pos (2 * pos + 2) ni hpos hc (by omega)
  | case2 l s pos ni h1 h2 ih =>
    intro _
    have hpos : pos < l.length := by omega
    unfold siftupLoop
    rw [dif_pos h1, if_neg h2]
    refine (ih (Or.inr (by simpa using h1))).trans ?_
    exact set_set_perm l pos (2 * pos + 1) ni hpos h1 (by omega)
  | case3 l s pos ni h1 =>
    intro hor
    unfold siftupLoop
    rw [dif_neg h1]
    by_cases hlen : pos < l.length
    · refine (siftdownAux_perm _ _ _ _ (by simpa using hlen)).trans ?_
      rw [List.set_set]
    · rcases hor with rfl | hpos
      · unfold siftdownAux
        rw [dif_neg (lt_irrefl pos), List.set_set]
      · exact absurd hpos hlen

theorem pySiftup_perm (l : List PT) (pos : Nat) : (pySiftup l pos).Perm l := by
  unfold pySiftup
  refine (siftupLoop_perm l pos pos (nth l pos) (Or.inl rfl)).trans ?_
  by_cases hpos : pos < l.length
  · rw [set_nth_self l pos hpos]
  · rw [List.set_eq_of_length_le (by omega)]

theorem heapifyAux_perm (i : Nat) :
    ∀ l : List PT, (heapifyAux l i).Perm l := by
  induction i with
  | zero => intro l; rw [heapifyAux]
  | succ i ih =>
    intro l
    rw [heapifyAux]
    exact (ih _).trans (pySiftup_perm l i)

theorem pyHeapify_perm (l : List PT) : (pyHeapify l).Perm l :=
  heapifyAux_perm _ l

theorem pyHeapreplace_perm (l : List PT) (x : PT) (h : l ≠ []) :
    (pyHeapreplace l x).Perm (x :: l.tail) := by
  obtain ⟨a, t, rfl⟩ := List.exists_cons_of_ne_nil h
  unfold pyHeapreplace
  have hset : (a :: t).set 0 x = x :: t := rfl
  rw [hset, List.tail_cons]
  exact pySiftup_perm _ 0

theorem pyHeappop_perm (l : List PT) (h : l ≠ []) :
    (pyHeappop l).Perm l.tail := by
  obtain ⟨a, t, rfl⟩ := List.exists_cons_of_ne_nil h
  rw [List.tail_cons]
  cases t with
  | nil => unfold pyHeappop; simp
  | cons b t2 =>
    have hne2 : (b :: t2 : List PT) ≠ [] := by simp
    have hlast : nth (a :: b :: t2) ((a :: b :: t2).length - 1) =
        (b :: t2).getLast hne2 := by
      rw [nth, List.getD_eq_getElem _ _ (by simp),
        ← List.getLast_eq_getElem _ (by simp), List.getLast_cons hne2]
    have hdrop : (a :: b :: t2).dropLast = a :: (b :: t2).dropLast := by
      rfl
    unfold pyHeappop
    simp only [hlast, hdrop]
    rw [if_neg (by simp)]
    have hset : (a :: (b :: t2).dropLast).set 0 ((b :: t2).getLast hne2) =
        (b :: t2).getLast hne2 :: (b :: t2).dropLast := rfl
    rw [hset]
    refine (pySiftup_perm _ 0).trans ?_
    refine List.Perm.trans ?_
      (List.Perm.of_eq (List.dropLast_append_getLast hne2))
    exact (List.perm_append_singleton _ _).symm

/-! ### Heap-property preservation of the heapq operations

CPython's `_siftup` walks the smaller children down to a leaf and then
calls `_siftdown` to float the moved item back up.  The two inductions
below follow that structure: the invariants say that the heap property
holds for every edge not touching the current "hole" `pos` (hypothesis
`ha`), that the hole's parent already dominates the hole's children
(hypothesis `hb`), and — for the upward phase — that the moving item `ni`
is dominated by nothing below the hole (hypothesis `hd`). -/

theorem siftdownAux_heap (l : List PT) (s pos : Nat) (ni : PT) :
    pos < l.length → Anc s pos →
    (∀ i j, s ≤ i → i ≠ pos → j ≠ pos → Child i j → j < l.length →
      (nth l i).start ≤ (nth l j).start) →
    (pos ≠ s → ∀ j, Child pos j → j < l.length →
      (nth l ((pos - 1) / 2)).start ≤ (nth l j).start) →
    (∀ j, Child pos j → j < l.length → ni.start ≤ (nth l j).start) →
    ∀ i j, s ≤ i → Child i j → j < (siftdownAux l s pos ni).length →
      (nth (siftdownAux l s pos ni) i).start ≤
        (nth (siftdownAux l s pos ni) j).start := by
  induction l, s, pos, ni using siftdownAux.induct with
  | case1 l s pos ni h1 h2 ih =>
    intro hpos hanc ha hb hd
    unfold siftdownAux
    rw [dif_pos h1, if_pos h2]
    have hpp_lt : (pos - 1) / 2 < pos := by omega
    have hpp_len : (pos - 1) / 2 < l.length := by omega
    refine ih ?_ ?_ ?_ ?_ ?_
    · simpa using hpp_len
    · exact anc_parent hanc (by omega)
    · intro i j hsi hip hjp hc hj
      rw [List.length_set] at hj
      by_cases hipos : i = pos
      · subst hipos
        have hjpos : j ≠ i := fun habs => absurd (habs ▸ child_gt hc) (by omega)
        rw [nth_set_self _ hpos, nth_set_ne _ (Ne.symm hjpos)]
        exact hb (by omega) j hc hj
      · by_cases hjpos : j = pos
        · subst hjpos
          exact absurd (child_parent hc).1 hip
        · rw [nth_set_ne _ (fun habs => hipos habs.symm),
            nth_set_ne _ (fun habs => hjpos habs.symm)]
          exact ha i j hsi hipos hjpos hc hj
    · intro hpps j hc hj
      rw [List.length_set] at hj
      have hplen : (l.set pos (nth l ((pos - 1) / 2))).length = l.length :=
        List.length_set ..
      have hanc2 : Anc s ((pos - 1) / 2) := anc_parent hanc (by omega)
      have hanc3 : Anc s (((pos - 1) / 2 - 1) / 2) := anc_parent hanc2 hpps
      have hppge : s ≤ (pos - 1) / 2 := anc_le hanc2
      have hpppos : 0 < (pos - 1) / 2 := by
        rcases Nat.eq_zero_or_pos ((pos - 1) / 2) with hz | hz
        · exact absurd (hz ▸ hanc2) (by
            intro habs
            have := anc_le habs
            omega)
        · exact hz
      have hgp_ne : ((pos - 1) / 2 - 1) / 2 ≠ pos := by omega
      have hgp_pp : (nth l (((pos - 1) / 2 - 1) / 2)).start ≤
          (nth l ((pos - 1) / 2)).start :=
        ha _ _ (anc_le hanc3) hgp_ne (by omega)
          (child_of_parent hpppos) hpp_len
      rw [nth_set_ne _ (fun habs => hgp_ne habs.symm)]
      by_cases hjpos : j = pos
      · subst hjpos
        rw [nth_set_self _ hpos]
        exact hgp_pp
      · rw [nth_set_ne _ (fun habs => hjpos habs.symm)]
        refine le_trans hgp_pp ?_
        exact ha _ j hppge (by omega) hjpos hc hj
    · intro j hc hj
      rw [List.length_set] at hj
      by_cases hjpos : j = pos
      · subst hjpos
        rw [nth_set_self _ hpos]
        exact le_of_lt h2
      · rw [nth_set_ne _ (fun habs => hjpos habs.symm)]
        refine le_trans (le_of_lt h2) ?_
        exact ha _ j (anc_le (anc_parent hanc (by omega))) (by omega) hjpos hc hj
  | case2 l s pos ni h1 h2 =>
    intro hpos hanc ha hb hd
    unfold siftdownAux
    rw [dif_pos h1, if_neg h2]
    intro i j hsi hc hj
    rw [List.length_set] at hj
    by_cases hipos : i = pos
    · subst hipos
      have hjpos : j ≠ i := fun habs => absurd (habs ▸ child_gt hc) (by omega)
      rw [nth_set_self _ hpos, nth_set_ne _ (Ne.symm hjpos)]
      exact hd j hc hj
    · by_cases hjpos : j = pos
      · subst hjpos
        have hpar := (child_parent hc).1
        rw [nth_set_ne _ (fun habs => hipos habs.symm), nth_set_self _ hpos,
          hpar]
        exact le_of_not_lt h2
      · rw [nth_set_ne _ (fun habs => hipos habs.symm),
          nth_set_ne _ (fun habs => hjpos habs.symm)]
        exact ha i j hsi hipos hjpos hc hj
  | case3 l s pos ni h1 =>
    intro hpos hanc ha hb hd
    unfold siftdownAux
    rw [dif_neg h1]
    have hps : pos = s := le_antisymm (by omega) (anc_le hanc)
    intro i j hsi hc hj
    rw [List.length_set] at hj
    by_cases hipos : i = pos
    · subst hipos
      have hjpos : j ≠ i := fun habs => absurd (habs ▸ child_gt hc) (by omega)
      rw [nth_set_self _ hpos, nth_set_ne _ (Ne.symm hjpos)]
      exact hd j hc hj
    · by_cases hjpos : j = pos
      · subst hjpos
        exact absurd (child_gt hc) (by omega)
      · rw [nth_set_ne _ (fun habs => hipos habs.symm),
          nth_set_ne _ (fun habs => hjpos habs.symm)]
        exact ha i j hsi hipos hjpos hc hj

theorem siftupLoop_heap (l : List PT) (s pos : Nat) (ni : PT) :
    pos < l.length → Anc s pos →
    (∀ i j, s ≤ i → i ≠ pos → j ≠ pos → Child i j → j < l.length →
      (nth l i).start ≤ (nth l j).start) →
    (pos ≠ s → ∀ j, Child pos j → j < l.length →
      (nth l ((pos - 1) / 2)).start ≤ (nth l j).start) →
    ∀ i j, s ≤ i → Child i j → j < (siftupLoop l s pos ni).length →
      (nth (siftupLoop l s pos ni) i).start ≤
        (nth (siftupLoop l s pos ni) j).start := by
  induction l, s, pos, ni using siftupLoop.induct with
  | case1 l s pos ni h1 h2 ih =>
    intro hpos hanc ha hb
    unfold siftupLoop
    rw [dif_pos h1, if_pos h2]
    have hc_len : 2 * pos + 2 < l.length := h2.1
    have hchild : Child pos (2 * pos + 2) := Or.inr rfl
    have hchoice : (nth l (2 * pos + 2)).start ≤ (nth l (2 * pos + 1)).start :=
      le_of_not_lt h2.2
    refine ih ?_ ?_ ?_ ?_
    · simpa using hc_len
    · exact anc_child hanc hchild
    · intro i j hsi hic hjc hcij hj
      rw [List.length_set] at hj
      by_cases hipos : i = pos
      · subst hipos
        have hj_oc : j = 2 * i + 1 := by
          rcases hcij with hj1 | hj1
          · exact hj1
          · exact absurd hj1 hjc
        subst hj_oc
        rw [nth_set_self _ hpos, nth_set_ne _ (by omega)]
        exact hchoice
      · by_cases hjpos : j = pos
        · have hpar : i = (pos - 1) / 2 := by
            have hp2 := (child_parent hcij).1
            rw [hjpos] at hp2
            exact hp2
          have hpos_ne_s : pos ≠ s := by
            have := child_gt hcij
            omega
          rw [hjpos, nth_set_ne _ (fun habs => hipos habs.symm),
            nth_set_self _ hpos, hpar]
          exact hb hpos_ne_s _ hchild hc_len
        · rw [nth_set_ne _ (fun habs => hipos habs.symm),
            nth_set_ne _ (fun habs => hjpos habs.symm)]
          exact ha i j hsi hipos hjpos hcij hj
    · intro _ j hcj hj
      rw [List.length_set] at hj
      have hpar : (2 * pos + 2 - 1) / 2 = pos := by omega
      have hjgt : 2 * pos + 2 < j := child_gt hcj
      rw [hpar, nth_set_self _ hpos, nth_set_ne _ (by omega)]
      exact ha _ j (anc_le (anc_child hanc hchild)) (by omega) (by omega)
        hcj hj
  | case2 l s pos ni h1 h2 ih =>
    intro hpos hanc ha hb
    unfold siftupLoop
    rw [dif_pos h1, if_neg h2]
    have hchild : Child pos (2 * pos + 1) := Or.inl rfl
    have hchoice : 2 * pos + 2 < l.length →
        (nth l (2 * pos + 1)).start ≤ (nth l (2 * pos + 2)).start := by
      intro hlen
      by_contra habs
      exact h2 ⟨hlen, fun hlt => habs (le_of_lt hlt)⟩
    refine ih ?_ ?_ ?_ ?_
    · simpa using h1
    · exact anc_child hanc hchild
    · intro i j hsi hic hjc hcij hj
      rw [List.length_set] at hj
      by_cases hipos : i = pos
      · subst hipos
        have hj_oc : j = 2 * i + 2 := by
          rcases hcij with hj1 | hj1
          · exact absurd hj1 hjc
          · exact hj1
        subst hj_oc
        rw [nth_set_self _ hpos, nth_set_ne _ (by omega)]
        exact hchoice hj
      · by_cases hjpos : j = pos
        · have hpar : i = (pos - 1) / 2 := by
            have hp2 := (child_parent hcij).1
            rw [hjpos] at hp2
            exact hp2
          have hpos_ne_s : pos ≠ s := by
            have := child_gt hcij
            omega
          rw [hjpos, nth_set_ne _ (fun habs => hipos habs.symm),
            nth_set_self _ hpos, hpar]
          exact hb hpos_ne_s _ hchild h1
        · rw [nth_set_ne _ (fun habs => hipos habs.symm),
            nth_set_ne _ (fun habs => hjpos habs.symm)]
          exact ha i j hsi hipos hjpos hcij hj
    · intro _ j hcj hj
      rw [List.length_set] at hj
      have hpar : (2 * pos + 1 - 1) / 2 = pos := by omega
      have hjgt : 2 * pos + 1 < j := child_gt hcj
      rw [hpar, nth_set_self _ hpos, nth_set_ne _ (by omega)]
      exact ha _ j (anc_le (anc_child hanc hchild)) (by omega) (by omega)
        hcj hj
  | case3 l s pos ni h1 =>
    intro hpos hanc ha hb
    unfold siftupLoop
    rw [dif_neg h1]
    have hvac : ∀ j, Child pos j → ¬ j < l.length := by
      intro j hc hj
      rcases hc with rfl | rfl <;> omega
    refine siftdownAux_heap _ s pos ni (by simpa using hpos) hanc ?_ ?_ ?_
    · intro i j hsi hip hjp hc hj
      rw [List.length_set] at hj
      rw [nth_set_ne _ (fun habs => hip habs.symm),
        nth_set_ne _ (fun habs => hjp habs.symm)]
      exact ha i j hsi hip hjp hc hj
    · intro _ j hc hj
      rw [List.length_set] at hj
      exact absurd hj (hvac j hc)
    · intro j hc hj
      rw [List.length_set] at hj
      exact absurd hj (hvac j hc)

theorem heapFrom_pySiftup (l : List PT) (pos : Nat) (hpos : pos < l.length)
    (hf : HeapFrom l (pos + 1)) : HeapFrom (pySiftup l pos) pos := by
  intro i j hij hc hjl
  exact siftupLoop_heap l pos pos (nth l pos) hpos (Anc.refl pos)
    (fun i j hsi hip _ hc hj => hf i j (by omega) hc hj)
    (fun hne => absurd rfl hne) i j hij hc hjl

theorem heapFrom_vacuous (l : List PT) :
    HeapFrom l (l.length / 2) := by
  intro i j hi hc hj
  rcases hc with rfl | rfl <;> omega

theorem heapifyAux_heapFrom (i : Nat) :
    ∀ l : List PT, i ≤ l.length → HeapFrom l i →
      HeapFrom (heapifyAux l i) 0 := by
  induction i with
  | zero => intro l _ hf; rw [heapifyAux]; exact hf
  | succ i ih =>
    intro l hle hf
    rw [heapifyAux]
    refine ih (pySiftup l i) ?_ ?_
    · rw [pySiftup_length]; omega
    · exact heapFrom_pySiftup l i (by omega) hf

theorem isHeap_pyHeapify (l : List PT) : IsHeap (pyHeapify l) := by
  unfold IsHeap pyHeapify
  exact heapifyAux_heapFrom _ l (by omega) (heapFrom_vacuous l)

theorem isHeap_pyHeapreplace (l : List PT) (x : PT) (h : IsHeap l)
    (hne : l ≠ []) : IsHeap (pyHeapreplace l x) := by
  unfold pyHeapreplace
  have h0 : 0 < (l.set 0 x).length := by
    rw [List.length_set]
    exact List.length_pos.mpr hne
  have hf : HeapFrom (l.set 0 x) 1 := by
    intro i j hi hc hj
    rw [List.length_set] at hj
    have hji := child_gt hc
    rw [nth_set_ne _ (by omega), nth_set_ne _ (by omega)]
    exact h i j (by omega) hc hj
  intro i j hi hc hj
  exact heapFrom_pySiftup _ 0 h0 hf i j (by omega) hc hj

theorem nth_dropLast (l : List PT) (i : Nat) (h : i < l.length - 1) :
    nth l.dropLast i = nth l i := by
  rw [nth, List.getD_eq_getElem _ _ (by rw [List.length_dropLast]; exact h),
    List.getElem_dropLast, nth, List.getD_eq_getElem _ _ (by omega)]

theorem isHeap_pyHeappop (l : List PT) (h : IsHeap l) :
    IsHeap (pyHeappop l) := by
  cases l with
  | nil =>
    intro i j hi hc hj
    simp [pyHeappop] at hj
  | cons a t =>
    cases t with
    | nil =>
      intro i j hi hc hj
      simp [pyHeappop] at hj
    | cons b t2 =>
      have hlen : (a :: b :: t2).length = t2.length + 2 := by simp
      show IsHeap (pyHeappop (a :: b :: t2))
      unfold pyHeappop
      rw [if_neg (by simp)]
      have h0 : 0 <
          (((a :: b :: t2).dropLast).set 0
            (nth (a :: b :: t2) ((a :: b :: t2).length - 1))).length := by
        rw [List.length_set, List.length_dropLast]
        simp
      have hf : HeapFrom
          (((a :: b :: t2).dropLast).set 0
            (nth (a :: b :: t2) ((a :: b :: t2).length - 1))) 1 := by
        intro i j hi hc hj
        rw [List.length_set, List.length_dropLast] at hj
        have hji := child_gt hc
        rw [nth_set_ne _ (by omega), nth_set_ne _ (by omega),
          nth_dropLast _ _ (by omega), nth_dropLast _ _ (by omega)]
        exact h i j (by omega) hc (by omega)
      intro i j hi hc hj
      exact heapFrom_pySiftup _ 0 h0 hf i j (by omega) hc hj

theorem isHeap_root_le (l : List PT) (h : IsHeap l) :
    ∀ j, j < l.length → (nth l 0).start ≤ (nth l j).start := by
  intro j
  induction j using Nat.strong_induction_on with
  | _ j ih =>
    intro hj
    rcases Nat.eq_zero_or_pos j with rfl | hpos
    · exact le_refl _
    · have hc : Child ((j - 1) / 2) j := child_of_parent hpos
      have hpar := h ((j - 1) / 2) j (Nat.zero_le _) hc hj
      exact le_trans (ih ((j - 1) / 2) (by omega) (by omega)) hpar

theorem isHeap_root_min (l : List PT) (h : IsHeap l) :
    ∀ pt ∈ l, (nth l 0).start ≤ pt.start := by
  intro pt hpt
  rcases List.getElem_of_mem hpt with ⟨j, hj, rfl⟩
  have h1 := isHeap_root_le l h j hj
  have h2 : nth l j = l[j] := List.getD_eq_getElem _ _ hj
  rw [h2] at h1
  exact h1

/-! ### The scheduler loop (claims C1, C2, C3) -/

theorem schedStep_cons (env : Nat → Nat → Option Int) (s : SchedState)
    (root : PT) (rest : List PT) (hh : s.heap = root :: rest) :
    schedStep env s = some
      ({ heap :=
          match env root.id (s.calls root.id) with
          | none => pyHeappop s.heap
          | some t => pyHeapreplace s.heap ⟨t, root.id⟩
         now := max s.now root.start
         calls := Function.update s.calls root.id (s.calls root.id + 1) },
       ⟨root.id, root.start, max s.now root.start⟩) := by
  unfold schedStep
  rw [hh]

theorem schedStep_none_iff (env : Nat → Nat → Option Int) (s : SchedState) :
    schedStep env s = none ↔ s.heap = [] := by
  cases hh : s.heap with
  | nil => unfold schedStep; rw [hh]; simp
  | cons root rest =>
    rw [schedStep_cons env s root rest hh]
    simp

theorem schedStep_heap_ids (env : Nat → Nat → Option Int) (s : SchedState)
    (s2 : SchedState) (ev : ExecEvent)
    (hstep : schedStep env s = some (s2, ev)) :
    ∃ rest : List PT, s.heap = PT.mk ev.due ev.id :: rest ∧
      ((env ev.id (s.calls ev.id) = none ∧
        (s2.heap.map PT.id).Perm (rest.map PT.id)) ∨
       (∃ t, env ev.id (s.calls ev.id) = some t ∧
        (s2.heap.map PT.id).Perm (ev.id :: rest.map PT.id))) := by
  cases hh : s.heap with
  | nil =>
    unfold schedStep at hstep
    rw [hh] at hstep
    cases hstep
  | cons root rest =>
    rw [schedStep_cons env s root rest hh] at hstep
    injection hstep with hstep
    injection hstep with hs2 hev
    subst hev
    refine ⟨rest, rfl, ?_⟩
    show (env root.id (s.calls root.id) = none ∧
        (s2.heap.map PT.id).Perm (rest.map PT.id)) ∨
      (∃ t, env root.id (s.calls root.id) = some t ∧
        (s2.heap.map PT.id).Perm (root.id :: rest.map PT.id))
    have hne : s.heap ≠ [] := by rw [hh]; simp
    have ht : s.heap.tail = rest := by rw [hh, List.tail_cons]
    cases henv : env root.id (s.calls root.id) with
    | none =>
      have hheap2 : s2.heap = pyHeappop s.heap := by
        rw [← hs2]
        show (match env root.id (s.calls root.id) with
          | none => pyHeappop s.heap
          | some t => pyHeapreplace s.heap ⟨t, root.id⟩) = pyHeappop s.heap
        rw [henv]
      refine Or.inl ⟨rfl, ?_⟩
      rw [hheap2]
      have hp := (pyHeappop_perm s.heap hne).map PT.id
      rw [ht] at hp
      exact hp
    | some t =>
      have hheap2 : s2.heap = pyHeapreplace s.heap ⟨t, root.id⟩ := by
        rw [← hs2]
        show (match env root.id (s.calls root.id) with
          | none => pyHeappop s.heap
          | some t2 => pyHeapreplace s.heap ⟨t2, root.id⟩) =
          pyHeapreplace s.heap ⟨t, root.id⟩
        rw [henv]
      refine Or.inr ⟨t, rfl, ?_⟩
      rw [hheap2]
      have hp := (pyHeapreplace_perm s.heap ⟨t, root.id⟩ hne).map PT.id
      rw [ht] at hp
      simpa using hp

theorem schedStates_succ_of_step (env : Nat → Nat → Option Int)
    (s0 : SchedState) (n : Nat) (s2 : SchedState) (ev : ExecEvent)
    (hstep : schedStep env (schedStates env s0 n) = some (s2, ev)) :
    schedStates env s0 (n + 1) = s2 := by
  simp only [schedStates]
  rw [hstep]

theorem schedStates_succ_of_none (env : Nat → Nat → Option Int)
    (s0 : SchedState) (n : Nat)
    (hstep : schedStep env (schedStates env s0 n) = none) :
    schedStates env s0 (n + 1) = schedStates env s0 n := by
  simp only [schedStates]
  rw [hstep]

theorem schedStates_isHeap (env : Nat → Nat → Option Int) (s0 : SchedState)
    (h0 : IsHeap s0.heap) (n : Nat) :
    IsHeap (schedStates env s0 n).heap := by
  induction n with
  | zero => exact h0
  | succ n ih =>
    cases hstep : schedStep env (schedStates env s0 n) with
    | none => rw [schedStates_succ_of_none env s0 n hstep]; exact ih
    | some p =>
      obtain ⟨s2, ev⟩ := p
      rw [schedStates_succ_of_step env s0 n s2 ev hstep]
      rcases schedStep_heap_ids env _ s2 ev hstep with ⟨rest, hh, hcase⟩
      have hne : (schedStates env s0 n).heap ≠ [] := by rw [hh]; simp
      cases hh2 : (schedStates env s0 n).heap with
      | nil => exact absurd hh2 hne
      | cons root rest2 =>
        rw [schedStep_cons env _ root rest2 hh2] at hstep
        injection hstep with hstep
        injection hstep with hs2 hev
        cases henv : env root.id ((schedStates env s0 n).calls root.id) with
        | none =>
          have hheap2 : s2.heap = pyHeappop (schedStates env s0 n).heap := by
            rw [← hs2]
            show (match env root.id ((schedStates env s0 n).calls root.id) with
              | none => pyHeappop (schedStates env s0 n).heap
              | some t => pyHeapreplace (schedStates env s0 n).heap
                  ⟨t, root.id⟩) = pyHeappop (schedStates env s0 n).heap
            rw [henv]
          rw [hheap2]
          exact isHeap_pyHeappop _ ih
        | some t =>
          have hheap2 : s2.heap =
              pyHeapreplace (schedStates env s0 n).heap ⟨t, root.id⟩ := by
            rw [← hs2]
            show (match env root.id ((schedStates env s0 n).calls root.id) with
              | none => pyHeappop (schedStates env s0 n).heap
              | some t2 => pyHeapreplace (schedStates env s0 n).heap
                  ⟨t2, root.id⟩) =
              pyHeapreplace (schedStates env s0 n).heap ⟨t, root.id⟩
            rw [henv]
          rw [hheap2]
          exact isHeap_pyHeapreplace _ _ ih hne

theorem schedInit_isHeap (env : Nat → Nat → Option Int) (ids : List Nat)
    (t0 : Int) : IsHeap (schedInit env ids t0).heap :=
  isHeap_pyHeapify _

/-- C1: for every collection of tasks with known due times, whenever the
scheduler loop executes a task, that task's due time is at most the due
time of every entry still pending in the heap (it is the globally earliest
pending task), and the clock at the moment `run()` is invoked is at least
the task's due time (the loop sleeps `max(0, due - now)`, so the
`assert now >= start` always holds). -/
theorem scheduler_runs_earliest_first (env : Nat → Nat → Option Int)
    (ids : List Nat) (t0 : Int) (n : Nat) (ev : ExecEvent)
    (h : schedEvent env (schedInit env ids t0) n = some ev) :
    (∀ pt ∈ (schedStates env (schedInit env ids t0) n).heap,
      ev.due ≤ pt.start) ∧ ev.due ≤ ev.time := by
  unfold schedEvent at h
  cases hstep : schedStep env (schedStates env (schedInit env ids t0) n) with
  | none => rw [hstep] at h; cases h
  | some p =>
    obtain ⟨s2, ev2⟩ := p
    rw [hstep] at h
    injection h with h
    subst h
    have hheap : IsHeap (schedStates env (schedInit env ids t0) n).heap :=
      schedStates_isHeap env _ (schedInit_isHeap env ids t0) n
    rcases schedStep_heap_ids env _ s2 ev2 hstep with ⟨rest, hh, _⟩
    constructor
    · intro pt hpt
      have hroot : nth (schedStates env (schedInit env ids t0) n).heap 0 =
          PT.mk ev2.due ev2.id := by rw [hh]; rfl
      have := isHeap_root_min _ hheap pt hpt
      rw [hroot] at this
      exact this
    · cases hh2 : (schedStates env (schedInit env ids t0) n).heap with
      | nil => rw [hh2] at hh; cases hh
      | cons root rest2 =>
        rw [schedStep_cons env _ root rest2 hh2] at hstep
        injection hstep with hstep
        injection hstep with hs2 hev
        rw [← hev]
        exact le_max_right _ _

theorem scheduler_runs_earliest_first_witness :
    (schedEvent fairEnv (schedInit fairEnv [0, 1] 0) 0 =
      some (ExecEvent.mk 0 60 60)) ∧
    ((∀ pt ∈ (schedStates fairEnv (schedInit fairEnv [0, 1] 0) 0).heap,
      (ExecEvent.mk 0 60 60).due ≤ pt.start) ∧
      (ExecEvent.mk 0 60 60).due ≤ (ExecEvent.mk 0 60 60).time) :=
  ⟨by simp [schedEvent, schedStep, schedStates, schedInit, fairEnv,
      pyHeapify, heapifyAux, pySiftup, siftupLoop, siftdownAux, nth],
   scheduler_runs_earliest_first fairEnv [0, 1] 0 0 _
     (by simp [schedEvent, schedStep, schedStates, schedInit, fairEnv,
       pyHeapify, heapifyAux, pySiftup, siftupLoop, siftdownAux, nth])⟩

theorem filterMap_ids_sublist (env : Nat → Nat → Option Int)
    (ids : List Nat) :
    ((ids.filterMap fun i => (env i 0).map fun t => PT.mk t i).map
      PT.id).Sublist ids := by
  induction ids with
  | nil => simp
  | cons i rest ih =>
    rw [List.filterMap_cons]
    cases henv : env i 0 with
    | none => exact ih.cons i
    | some t => simpa using ih.cons₂ i

theorem schedInit_ids_nodup (env : Nat → Nat → Option Int) (ids : List Nat)
    (t0 : Int) (h : ids.Nodup) :
    ((schedInit env ids t0).heap.map PT.id).Nodup := by
  have hperm := (pyHeapify_perm
    (ids.filterMap fun i => (env i 0).map fun t => PT.mk t i)).map PT.id
  exact hperm.nodup_iff.mpr (h.sublist (filterMap_ids_sublist env ids))

theorem schedStep_nodup (env : Nat → Nat → Option Int) (s s2 : SchedState)
    (ev : ExecEvent) (hstep : schedStep env s = some (s2, ev))
    (h : (s.heap.map PT.id).Nodup) : (s2.heap.map PT.id).Nodup := by
  rcases schedStep_heap_ids env s s2 ev hstep with ⟨rest, hh, hcase⟩
  have hm : s.heap.map PT.id = ev.id :: rest.map PT.id := by rw [hh]; rfl
  rw [hm] at h
  rcases hcase with ⟨_, hperm⟩ | ⟨t, _, hperm⟩
  · exact hperm.nodup_iff.mpr (List.Nodup.of_cons h)
  · exact hperm.nodup_iff.mpr h

theorem schedStates_ids_nodup (env : Nat → Nat → Option Int)
    (ids : List Nat) (t0 : Int) (h : ids.Nodup) (n : Nat) :
    ((schedStates env (schedInit env ids t0) n).heap.map PT.id).Nodup := by
  induction n with
  | zero => exact schedInit_ids_nodup env ids t0 h
  | succ n ih =>
    cases hstep : schedStep env (schedStates env (schedInit env ids t0) n) with
    | none => rw [schedStates_succ_of_none _ _ _ hstep]; exact ih
    | some p =>
      obtain ⟨s2, ev⟩ := p
      rw [schedStates_succ_of_step _ _ _ _ _ hstep]
      exact schedStep_nodup env _ s2 ev hstep ih

theorem schedStep_not_mem (env : Nat → Nat → Option Int) (s s2 : SchedState)
    (ev : ExecEvent) (tid : Nat) (hstep : schedStep env s = some (s2, ev))
    (h : tid ∉ s.heap.map PT.id) : tid ∉ s2.heap.map PT.id := by
  rcases schedStep_heap_ids env s s2 ev hstep with ⟨rest, hh, hcase⟩
  have hm : s.heap.map PT.id = ev.id :: rest.map PT.id := by rw [hh]; rfl
  rw [hm] at h
  rcases hcase with ⟨_, hperm⟩ | ⟨t, _, hperm⟩
  · exact fun habs => h (List.mem_cons_of_mem _ (hperm.subset habs))
  · exact fun habs => h (hperm.subset habs)

theorem schedEvent_id_mem (env : Nat → Nat → Option Int) (s0 : SchedState)
    (m : Nat) (ev2 : ExecEvent) (h : schedEvent env s0 m = some ev2) :
    ev2.id ∈ (schedStates env s0 m).heap.map PT.id := by
  unfold schedEvent at h
  cases hstep : schedStep env (schedStates env s0 m) with
  | none => rw [hstep] at h; cases h
  | some p =>
    obtain ⟨s2, ev⟩ := p
    rw [hstep] at h
    injection h with h
    subst h
    rcases schedStep_heap_ids env _ s2 ev hstep with ⟨rest, hh, _⟩
    rw [hh]
    simp

/-- C2: for distinct tasks, once a task's `getNextRuntime()` returns `None`
after a run, that task is removed from the heap and is absent from it at
every later iteration, and no later iteration executes it; moreover the
scheduling loop terminates (the step function returns `none`) exactly when
the heap of tasks with a due time is empty. -/
theorem scheduler_none_removes_permanently (env : Nat → Nat → Option Int)
    (ids : List Nat) (t0 : Int) (hnd : ids.Nodup) (n : Nat) (ev : ExecEvent)
    (hev : schedEvent env (schedInit env ids t0) n = some ev)
    (hnone : env ev.id
      ((schedStates env (schedInit env ids t0) n).calls ev.id) = none) :
    (∀ m, n < m →
      ev.id ∉ (schedStates env (schedInit env ids t0) m).heap.map PT.id ∧
      ∀ ev2, schedEvent env (schedInit env ids t0) m = some ev2 →
        ev2.id ≠ ev.id) ∧
    (∀ k, schedStep env (schedStates env (schedInit env ids t0) k) = none ↔
      (schedStates env (schedInit env ids t0) k).heap = []) := by
  constructor
  · unfold schedEvent at hev
    cases hstep : schedStep env (schedStates env (schedInit env ids t0) n) with
    | none => rw [hstep] at hev; cases hev
    | some p =>
      obtain ⟨s2, ev2⟩ := p
      rw [hstep] at hev
      injection hev with hev
      subst hev
      rcases schedStep_heap_ids env _ s2 ev2 hstep with ⟨rest, hh, hcase⟩
      have hbase : ev2.id ∉ s2.heap.map PT.id := by
        rcases hcase with ⟨_, hperm⟩ | ⟨t, henv2, _⟩
        · intro habs
          have h2 : ev2.id ∈ rest.map PT.id := hperm.subset habs
          have hnd2 := schedStates_ids_nodup env ids t0 hnd n
          rw [hh] at hnd2
          simp only [List.map_cons] at hnd2
          exact (List.nodup_cons.mp hnd2).1 h2
        · rw [hnone] at henv2
          cases henv2
      have hnotmem : ∀ m2, n < m2 →
          ev2.id ∉ (schedStates env (schedInit env ids t0) m2).heap.map
            PT.id := by
        intro m2 hm2
        induction m2, hm2 using Nat.le_induction with
        | base =>
          rw [schedStates_succ_of_step _ _ _ _ _ hstep]
          exact hbase
        | succ m2 hm2 ih2 =>
          cases hstep2 :
              schedStep env (schedStates env (schedInit env ids t0) m2) with
          | none =>
            rw [schedStates_succ_of_none _ _ _ hstep2]
            exact ih2
          | some p2 =>
            obtain ⟨s3, ev3⟩ := p2
            rw [schedStates_succ_of_step _ _ _ _ _ hstep2]
            exact schedStep_not_mem env _ s3 ev3 _ hstep2 ih2
      intro m hm
      refine ⟨hnotmem m hm, ?_⟩
      intro ev3 hev3 habs
      have hmem := schedEvent_id_mem env _ m ev3 hev3
      rw [habs] at hmem
      exact hnotmem m hm hmem
  · intro k
    exact schedStep_none_iff env _

theorem scheduler_none_removes_permanently_witness :
    ([0, 1] : List Nat).Nodup ∧
    schedEvent fairEnv (schedInit fairEnv [0, 1] 0) 2 =
      some (ExecEvent.mk 1 120 120) ∧
    fairEnv (ExecEvent.mk 1 120 120).id
      ((schedStates fairEnv (schedInit fairEnv [0, 1] 0) 2).calls
        (ExecEvent.mk 1 120 120).id) = none ∧
    ((∀ m, 2 < m →
      (ExecEvent.mk 1 120 120).id ∉
        (schedStates fairEnv (schedInit fairEnv [0, 1] 0) m).heap.map PT.id ∧
      ∀ ev2, schedEvent fairEnv (schedInit fairEnv [0, 1] 0) m = some ev2 →
        ev2.id ≠ (ExecEvent.mk 1 120 120).id) ∧
    (∀ k, schedStep fairEnv
        (schedStates fairEnv (schedInit fairEnv [0, 1] 0) k) = none ↔
      (schedStates fairEnv (schedInit fairEnv [0, 1] 0) k).heap = [])) :=
  ⟨by decide,
   by simp [schedEvent, schedStep, schedStates, schedInit, fairEnv,
     pyHeapify, heapifyAux, pySiftup, siftupLoop, siftdownAux, pyHeappop,
     pyHeapreplace, nth, Function.update_apply],
   by simp [schedStep, schedStates, schedInit, fairEnv,
     pyHeapify, heapifyAux, pySiftup, siftupLoop, siftdownAux, pyHeappop,
     pyHeapreplace, nth, Function.update_apply],
   scheduler_none_removes_permanently fairEnv [0, 1] 0 (by decide) 2 _
     (by simp [schedEvent, schedStep, schedStates, schedInit, fairEnv,
       pyHeapify, heapifyAux, pySiftup, siftupLoop, siftdownAux, pyHeappop,
       pyHeapreplace, nth, Function.update_apply])
     (by simp [schedStep, schedStates, schedInit, fairEnv,
       pyHeapify, heapifyAux, pySiftup, siftupLoop, siftdownAux, pyHeappop,
       pyHeapreplace, nth, Function.update_apply])⟩

/-! ### Tie-break order (claim C3) -/

theorem schedStates_stable (env : Nat → Nat → Option Int) (s0 : SchedState)
    (k : Nat) (hk : (schedStates env s0 k).heap = []) :
    ∀ m, k ≤ m → schedStates env s0 m = schedStates env s0 k := by
  intro m hm
  induction m, hm using Nat.le_induction with
  | base => rfl
  | succ m hm ih =>
    have hnone : schedStep env (schedStates env s0 m) = none := by
      rw [ih, schedStep_none_iff]
      exact hk
    rw [schedStates_succ_of_none env s0 m hnone, ih]

theorem schedTrace_stable (env : Nat → Nat → Option Int) (s0 : SchedState)
    (k : Nat) (hk : (schedStates env s0 k).heap = []) :
    ∀ n, k ≤ n → schedTrace env s0 n = schedTrace env s0 k := by
  intro n hn
  induction n, hn using Nat.le_induction with
  | base => rfl
  | succ n hn ih =>
    have hsplit : schedTrace env s0 (n + 1) =
        schedTrace env s0 n ++ (schedEvent env s0 n).toList := by
      unfold schedTrace
      rw [List.range_succ, List.filterMap_append]
      simp only [List.filterMap_cons, List.filterMap_nil]
      cases schedEvent env s0 n <;> rfl
    have hev : schedEvent env s0 n = none := by
      unfold schedEvent
      rw [schedStates_stable env s0 k hk n hn,
        (schedStep_none_iff env _).mpr hk]
      rfl
    rw [hsplit, hev]
    simpa using ih

/-- C3 (counterexample): two tasks that report the identical due time +100s,
inserted in the order task 0 then task 1, are executed in the order task 1,
task 0 — `__PrioritizedTask` carries no insertion counter, so `heapify` on
two equal-key entries leaves the later insertion at the root. -/
theorem tie_order_counterexample :
    schedTrace tieEnv (schedInit tieEnv [0, 1] 0) 2 =
      [ExecEvent.mk 1 100 100, ExecEvent.mk 0 100 100] ∧
    (schedTrace tieEnv (schedInit tieEnv [0, 1] 0) 2).map ExecEvent.id ≠
      [0, 1] := by
  have hr : List.range 2 = [0, 1] := rfl
  have h : schedTrace tieEnv (schedInit tieEnv [0, 1] 0) 2 =
      [ExecEvent.mk 1 100 100, ExecEvent.mk 0 100 100] := by
    simp [schedTrace, hr, schedEvent, schedStates, schedStep, schedInit,
      tieEnv, pyHeapify, heapifyAux, pySiftup, siftupLoop, siftdownAux,
      pyHeappop, pyHeapreplace, nth, Function.update_apply]
  refine ⟨h, ?_⟩
  rw [h]
  decide

/-- C3 (amended): when two tasks share an identical due time, the execution
order within a single run is deterministic — for the equal-due pair
inserted in order task 0, task 1, the complete run (any cut-off past its
end) is exactly the fixed sequence task 1 then task 0 — but it is the
heap order, which need not equal the insertion order. -/
theorem tie_order_deterministic (n : Nat) (hn : 2 ≤ n) :
    schedTrace tieEnv (schedInit tieEnv [0, 1] 0) n =
      [ExecEvent.mk 1 100 100, ExecEvent.mk 0 100 100] := by
  have hempty : (schedStates tieEnv (schedInit tieEnv [0, 1] 0) 2).heap =
      [] := by
    simp [schedStates, schedStep, schedInit, tieEnv, pyHeapify, heapifyAux,
      pySiftup, siftupLoop, siftdownAux, pyHeappop, pyHeapreplace, nth,
      Function.update_apply]
  rw [schedTrace_stable tieEnv _ 2 hempty n hn]
  have hr : List.range 2 = [0, 1] := rfl
  simp [schedTrace, hr, schedEvent, schedStates, schedStep, schedInit,
    tieEnv, pyHeapify, heapifyAux, pySiftup, siftupLoop, siftdownAux,
    pyHeappop, pyHeapreplace, nth, Function.update_apply]

theorem tie_order_deterministic_witness :
    2 ≤ 3 ∧
    schedTrace tieEnv (schedInit tieEnv [0, 1] 0) 3 =
      [ExecEvent.mk 1 100 100, ExecEvent.mk 0 100 100] :=
  ⟨by decide, tie_order_deterministic 3 (by decide)⟩

end ZAM
